import Mathlib

/-!
Verification development for the YoungTools repository (`src/young/diagram.py`,
`src/young/diagrams.py`).

A Young diagram is stored as its bounding-box height, width, and the tuple of
row lengths (`usual_description`), exactly as in `YoungDiagram.__init__`.
Python exceptions (failed `assert`s, `NotImplementedError`) are modelled by
`Option`/`none` results; a constructor that validates its input returns
`Option YoungDiagram`.  Python strings over the alphabet `{U, R}` are modelled
as `List Char`.
-/

namespace YoungTools

/-- The data of a Young diagram object: `self._height`, `self._width`,
`self._usual_description` from `YoungDiagram.__init__` (diagram.py:54-110).
`self._n` is derived as `height + width` everywhere.  The binary description
is derived from these fields by `binary_description` below. -/
structure YoungDiagram where
  height : Nat
  width : Nat
  usual_description : List Nat
deriving DecidableEq, Repr

instance : Inhabited YoungDiagram := ⟨⟨0, 0, []⟩⟩

/-- The validation loop of `YoungDiagram.__init__` (diagram.py:74-93): each
row length must be `≤` the previous one, starting from `previous_row_length =
width`; entries are natural numbers, so the non-negativity asserts hold. -/
def validUsual (prev : Nat) : List Nat → Bool
  | [] => true
  | r :: rs => decide (r ≤ prev) && validUsual r rs

/-- The constructor `YoungDiagram.__init__` (diagram.py:54-110): asserts
`len(usual_description) <= height` and the row-length chain, then right-pads
the row lengths with zeros up to `height`.  A failed assert is `none`. -/
def YoungDiagram.mk? (height width : Nat) (usual : List Nat) : Option YoungDiagram :=
  if usual.length ≤ height && validUsual width usual then
    some ⟨height, width, usual ++ List.replicate (height - usual.length) 0⟩
  else none

/-- The binary-description loop of `YoungDiagram.__init__` (diagram.py:96-110),
with the loop `for step in range(self._n)` unrolled as structural recursion on
the remaining number of steps (`fuel`); `x`, `y` are the walk coordinates. -/
def binaryAux (usual : List Nat) : Nat → Nat → Nat → List Char
  | 0, _, _ => []
  | fuel + 1, x, y =>
    if y = 0 then 'R' :: binaryAux usual fuel x y
    else if x < usual.getD (y - 1) 0 then 'R' :: binaryAux usual fuel (x + 1) y
    else 'U' :: binaryAux usual fuel x (y - 1)

/-- `self._binary_description`, computed by the walk in `__init__`
(diagram.py:96-110) from the stored fields. -/
def YoungDiagram.binary_description (d : YoungDiagram) : List Char :=
  binaryAux d.usual_description (d.height + d.width) 0 d.height

/-- The `column_heights` accumulation loop of
`Construct_From_Binary_Description` (diagram.py:200-206): run through the
string; a `U` decrements the running column height, an `R` records it. -/
def columnHeights : List Char → Nat → List Nat
  | [], _ => []
  | c :: rest, ch =>
    if c = 'U' then columnHeights rest (ch - 1)
    else if c = 'R' then ch :: columnHeights rest ch
    else columnHeights rest ch

/-- The row-width count of `Construct_From_Binary_Description`
(diagram.py:207-216): the number of recorded column heights that are `> r`
(Python writes `row_counter <= column_height - 1` over integers, which is
`r < column_height`). -/
def countGt (r : Nat) (chs : List Nat) : Nat :=
  (chs.filter (fun c => decide (r < c))).length

/-- `YoungDiagram.Construct_From_Binary_Description` (diagram.py:192-220):
counts of `U`/`R` give height and width, the assert that the string holds no
other symbol is the length equation, then the row widths are recovered and the
validating constructor is invoked. -/
def Construct_From_Binary_Description (s : List Char) : Option YoungDiagram :=
  let n := s.length
  let height := s.count 'U'
  let width := s.count 'R'
  if n = height + width then
    let chs := columnHeights s height
    let row_widths := (List.range height).map (fun r => countGt r chs)
    YoungDiagram.mk? height width row_widths
  else none

/-- `YoungDiagram.cyclic_action` (diagram.py:235-243).  `steps` is reduced
mod `n` with Python's nonnegative `%`; the new string is
`old[self._n - steps:] + old[:-steps]`.  Note that for `steps = 0` the Python
slice `old[:-0]` is `old[:0] = ""`, not the whole string; the model keeps that
behaviour.  The `n = 0` case raises `NotImplementedError` (`none`). -/
def YoungDiagram.cyclic_action (d : YoungDiagram) (steps : Int) : Option YoungDiagram :=
  let n := d.height + d.width
  if 0 < n then
    let s : Nat := (steps % (n : Int)).toNat
    let old := d.binary_description
    let tail := if s = 0 then [] else old.take (old.length - s)
    Construct_From_Binary_Description (old.drop (n - s) ++ tail)
  else none

/-- `YoungDiagram.complement` (diagram.py:187-190): reverse the binary
description and re-decode. -/
def YoungDiagram.complement (d : YoungDiagram) : Option YoungDiagram :=
  Construct_From_Binary_Description d.binary_description.reverse

/-- The row checks of `YoungDiagram.is_upper_triangular` (diagram.py:260-268):
`row_length <= width * (height - row_counter) / height` compared with exact
(Sage rational) arithmetic, i.e. `row_length * height ≤ width * (height - r)`
over `ℤ`; `r` is the running row index of `enumerate`. -/
def utCheck (height width : Nat) : Nat → List Nat → Bool
  | _, [] => true
  | r, u :: us =>
    decide ((u : ℤ) * height ≤ (width : ℤ) * ((height : ℤ) - (r : ℤ))) &&
      utCheck height width (r + 1) us

/-- `YoungDiagram.is_upper_triangular` (diagram.py:260-268); raises
(`none`) when `height = 0`. -/
def YoungDiagram.is_upper_triangular (d : YoungDiagram) : Option Bool :=
  if 0 < d.height then some (utCheck d.height d.width 0 d.usual_description)
  else none

/-- `YoungDiagram.is_lower_triangular` (diagram.py:257-258):
`self.complement().is_upper_triangular()`; exceptions propagate. -/
def YoungDiagram.is_lower_triangular (d : YoungDiagram) : Option Bool :=
  d.complement.bind (fun c => c.is_upper_triangular)

/-- `YoungDiagram.slope` (diagram.py:300-307): the exact rational
`height / width`; raises (`none`) when `width = 0`. -/
def YoungDiagram.slope (d : YoungDiagram) : Option ℚ :=
  if 0 < d.width then some ((d.height : ℚ) / (d.width : ℚ)) else none

/-- `YoungDiagram.volume` (diagram.py:329-330): the sum of the row lengths. -/
def YoungDiagram.volume (d : YoungDiagram) : Nat :=
  d.usual_description.sum

/-- The comparison loop of `YoungDiagram.__lt__` (diagram.py:145-154):
lexicographic comparison of the row-length tuples (both of length `height`
for diagrams built by the constructor). -/
def lexLtAux : List Nat → List Nat → Bool
  | a :: as_, b :: bs => if a < b then true else if a = b then lexLtAux as_ bs else false
  | _, _ => false

/-- `YoungDiagram.__lt__` (diagram.py:131-154): asserts equal height and
width (else `none`), then compares the row-length tuples lexicographically. -/
def YoungDiagram.lt? (d e : YoungDiagram) : Option Bool :=
  if d.height = e.height ∧ d.width = e.width then
    some (lexLtAux d.usual_description e.usual_description)
  else none

/-- The string rotation performed inside `YoungDiagram.orbit_length`
(diagram.py:279): `previous_string[self._n - 1:] + previous_string[:-1]`,
a cyclic right-shift by one for strings of length `n`. -/
def orbitRot (n : Nat) (s : List Char) : List Char :=
  s.drop (n - 1) ++ s.take (s.length - 1)

/-- The `while True` loop of `YoungDiagram.orbit_length` (diagram.py:270-283),
run with explicit fuel: the loop increments the counter, rotates, and stops
when the initial string reappears.  With fuel `n + 1` the fuel never runs
out, because rotating `n` times is the identity. -/
def orbitLengthAux (n : Nat) (initial : List Char) : List Char → Nat → Nat → Option Nat
  | _, _, 0 => none
  | prev, counter, fuel + 1 =>
    let next := orbitRot n prev
    if next = initial then some (counter + 1)
    else orbitLengthAux n initial next (counter + 1) fuel

/-- `YoungDiagram.orbit_length` (diagram.py:270-283). -/
def YoungDiagram.orbit_length (d : YoungDiagram) : Option Nat :=
  let n := d.height + d.width
  orbitLengthAux n d.binary_description d.binary_description 0 (n + 1)

/-- Result of running a Python generator to its end: the list of yielded
values, tagged by how the run ended (normal termination, an exception raised
after the recorded yields, or the model's fuel running out). -/
inductive GenRes (α : Type) where
  | finished : List α → GenRes α
  | raised : List α → GenRes α
  | fuelOut : List α → GenRes α
deriving DecidableEq, Repr

/-- The values a generator yielded before it stopped (however it stopped). -/
def yieldsOf {α : Type} : GenRes α → List α
  | GenRes.finished l => l
  | GenRes.raised l => l
  | GenRes.fuelOut l => l

/-- The loop body of `YoungDiagram.cyclic_orbit` (diagram.py:245-255):
yield the current diagram, step once with `>> 1` (i.e. `cyclic_action(1)`),
and stop as soon as the step returns to the first diagram.  A raised
exception inside the step ends the run after the yields so far. -/
def cyclicOrbitAux (first : YoungDiagram) : YoungDiagram → Nat → GenRes YoungDiagram
  | _, 0 => GenRes.fuelOut []
  | cur, fuel + 1 =>
    match cur.cyclic_action 1 with
    | none => GenRes.raised [cur]
    | some next =>
      if next = first then GenRes.finished [cur]
      else
        match cyclicOrbitAux first next fuel with
        | GenRes.finished l => GenRes.finished (cur :: l)
        | GenRes.raised l => GenRes.raised (cur :: l)
        | GenRes.fuelOut l => GenRes.fuelOut (cur :: l)

/-- `YoungDiagram.cyclic_orbit` (diagram.py:245-255), with fuel. -/
def YoungDiagram.cyclic_orbit (d : YoungDiagram) (fuel : Nat) : GenRes YoungDiagram :=
  cyclicOrbitAux d d fuel

/-- The scan loop of `YoungDiagram.steps_to_next_lower_triangular`
(diagram.py:309-320): while `steps < n`, test the current diagram and
otherwise rotate once.  The loop guard `steps < n` is carried as the explicit
remaining-iteration count `fuel = n - steps` (the two move in lockstep, so
`steps < n` is exactly `0 < fuel`).  Outer `none` is a raised exception;
`some none` is Python's implicit `None` when the loop falls through. -/
def stepsToNextAux : YoungDiagram → Nat → Nat → Option (Option Nat)
  | _, _, 0 => some none
  | cur, steps, fuel + 1 =>
    match cur.is_lower_triangular with
    | none => none
    | some true => some (some steps)
    | some false =>
      match cur.cyclic_action 1 with
      | none => none
      | some next => stepsToNextAux next (steps + 1) fuel

/-- `YoungDiagram.steps_to_next_lower_triangular` (diagram.py:309-320). -/
def YoungDiagram.steps_to_next_lower_triangular (d : YoungDiagram) : Option (Option Nat) :=
  stepsToNextAux d 0 (d.height + d.width)


/-! ### The staircase normal form of binary descriptions

`pathFrom w x l` is the string `R^(t1-x) U R^(t2-t1) U ... U R^(w-tk)` for
`l = [t1, ..., tk]`; every binary description of a valid diagram, and more
generally every string over `{U, R}`, has this form for a unique weakly
increasing list `l` bounded by `w`.  All encode/decode reasoning goes through
this normal form. -/


def pathFrom (w : Nat) : Nat → List Nat → List Char
  | x, [] => List.replicate (w - x) 'R'
  | x, t :: ts => List.replicate (t - x) 'R' ++ 'U' :: pathFrom w t ts

/-- `l` is weakly increasing, starting at least at `x` and ending at most at
`w`. -/
def incBounded (x w : Nat) : List Nat → Prop
  | [] => x ≤ w
  | t :: ts => x ≤ t ∧ incBounded t w ts

/-- A diagram object whose stored fields satisfy the constructor's
invariants: exactly `height` rows, weakly decreasing, first row `≤ width`. -/
def ValidYD (d : YoungDiagram) : Prop :=
  d.usual_description.length = d.height ∧ validUsual d.width d.usual_description = true

theorem mk?_valid {h w : Nat} {us : List Nat} {d : YoungDiagram}
    (hd : YoungDiagram.mk? h w us = some d) : ValidYD d := by
  unfold YoungDiagram.mk? at hd
  by_cases hc : us.length ≤ h ∧ validUsual w us = true
  · rw [if_pos (by simp [hc.1, hc.2])] at hd
    cases hd
    refine ⟨by simp; omega, ?_⟩
    · have padz : ∀ (k p : Nat), validUsual p (List.replicate k 0) = true := by
        intro k
        induction k with
        | zero => intro p; rfl
        | succ k ih =>
          intro p
          simp only [List.replicate_succ, validUsual, Bool.and_eq_true, decide_eq_true_eq]
          exact ⟨Nat.zero_le _, ih 0⟩
      have pad : ∀ (l : List Nat) (p k : Nat), validUsual p l = true →
          validUsual p (l ++ List.replicate k 0) = true := by
        intro l
        induction l with
        | nil => intro p k _; exact padz k p
        | cons a l ih =>
          intro p k hv
          simp only [validUsual, Bool.and_eq_true, decide_eq_true_eq] at hv ⊢
          exact ⟨hv.1, ih a k hv.2⟩
      exact pad us w _ hc.2
  · rw [if_neg (by simpa using hc)] at hd
    cases hd

theorem mk?_dims {h w : Nat} {us : List Nat} {d : YoungDiagram}
    (hd : YoungDiagram.mk? h w us = some d) : d.height = h ∧ d.width = w := by
  unfold YoungDiagram.mk? at hd
  by_cases hc : us.length ≤ h ∧ validUsual w us = true
  · rw [if_pos (by simp [hc.1, hc.2])] at hd
    cases hd; exact ⟨rfl, rfl⟩
  · rw [if_neg (by simpa using hc)] at hd
    cases hd

theorem validUsual_mono {p q : Nat} {u : List Nat} (hv : validUsual p u = true)
    (hpq : p ≤ q) : validUsual q u = true := by
  cases u with
  | nil => rfl
  | cons a l =>
    simp only [validUsual, Bool.and_eq_true, decide_eq_true_eq] at hv ⊢
    exact ⟨le_trans hv.1 hpq, hv.2⟩

theorem validUsual_entries {p : Nat} {u : List Nat} (hv : validUsual p u = true) :
    ∀ a ∈ u, a ≤ p := by
  induction u generalizing p with
  | nil => intro a ha; cases ha
  | cons b l ih =>
    simp only [validUsual, Bool.and_eq_true, decide_eq_true_eq] at hv
    intro a ha
    rcases List.mem_cons.1 ha with rfl | ha
    · exact hv.1
    · exact le_trans (ih hv.2 a ha) hv.1

theorem validUsual_dec {p : Nat} {u : List Nat} (hv : validUsual p u = true) :
    ∀ i, i + 1 < u.length → u.getD (i + 1) 0 ≤ u.getD i 0 := by
  induction u generalizing p with
  | nil => intro i hi; simp at hi
  | cons b l ih =>
    simp only [validUsual, Bool.and_eq_true, decide_eq_true_eq] at hv
    intro i hi
    cases i with
    | zero =>
      simp only [List.getD_cons_succ, List.getD_cons_zero]
      cases l with
      | nil => simp at hi
      | cons c l' =>
        simp only [validUsual, Bool.and_eq_true, decide_eq_true_eq] at hv
        simpa using hv.2.1
    | succ j =>
      simp only [List.getD_cons_succ]
      exact ih hv.2 j (by simpa using hi)

theorem binaryAux_y0 (u : List Nat) : ∀ (fuel x : Nat),
    binaryAux u fuel x 0 = List.replicate fuel 'R' := by
  intro fuel
  induction fuel with
  | zero => intro x; rfl
  | succ f ih =>
    intro x
    simp [binaryAux, ih, List.replicate_succ]

theorem binaryAux_run (u : List Nat) : ∀ (k t x fuel y : Nat), y ≠ 0 →
    u.getD (y - 1) 0 = t → t - x = k → x ≤ t → k < fuel →
    binaryAux u fuel x y =
      List.replicate k 'R' ++ 'U' :: binaryAux u (fuel - k - 1) t (y - 1) := by
  intro k
  induction k with
  | zero =>
    intro t x fuel y hy ht hk hxt hfuel
    have hx : x = t := by omega
    subst hx
    cases fuel with
    | zero => omega
    | succ f =>
      simp only [binaryAux, if_neg hy, ht]
      rw [if_neg (by omega)]
      simp
  | succ k ih =>
    intro t x fuel y hy ht hk hxt hfuel
    cases fuel with
    | zero => omega
    | succ f =>
      simp only [binaryAux, if_neg hy, ht]
      rw [if_pos (by omega)]
      rw [ih t (x + 1) f y hy ht (by omega) (by omega) (by omega)]
      have harith : f + 1 - (k + 1) - 1 = f - k - 1 := by omega
      rw [harith]
      simp [List.replicate_succ]

theorem take_reverse_succ (u : List Nat) (y : Nat) (hy : y < u.length) :
    (u.take (y + 1)).reverse = u.getD y 0 :: (u.take y).reverse := by
  have h1 : u[y]? = some u[y] := List.getElem?_eq_getElem hy
  rw [List.take_succ, h1, List.getD_eq_getElem u 0 hy]
  simp

theorem binaryAux_eq_pathFrom (u : List Nat) (w : Nat)
    (hw : ∀ i, i < u.length → u.getD i 0 ≤ w)
    (hdec : ∀ i, i + 1 < u.length → u.getD (i + 1) 0 ≤ u.getD i 0) :
    ∀ y x, y ≤ u.length → (y = 0 ∨ x ≤ u.getD (y - 1) 0) → x ≤ w →
    binaryAux u (w - x + y) x y = pathFrom w x ((u.take y).reverse) := by
  intro y
  induction y with
  | zero =>
    intro x _ _ hxw
    simp [binaryAux_y0, pathFrom]
  | succ y ih =>
    intro x hyl hx hxw
    have hyl' : y < u.length := by omega
    have hxt : x ≤ u.getD y 0 := by
      rcases hx with h | h
      · omega
      · simpa using h
    have htw : u.getD y 0 ≤ w := hw y hyl'
    rw [binaryAux_run u (u.getD y 0 - x) (u.getD y 0) x (w - x + (y + 1)) (y + 1)
      (by omega) (by simp) rfl hxt (by omega)]
    have harith : w - x + (y + 1) - (u.getD y 0 - x) - 1 = w - u.getD y 0 + y := by omega
    have hy1 : y + 1 - 1 = y := by omega
    rw [harith, hy1]
    have hprev : y = 0 ∨ u.getD y 0 ≤ u.getD (y - 1) 0 := by
      cases y with
      | zero => exact Or.inl rfl
      | succ z =>
        right
        simpa using hdec z (by omega)
    rw [ih (u.getD y 0) (by omega) hprev htw]
    rw [take_reverse_succ u y hyl']
    simp [pathFrom]

theorem binary_description_eq {d : YoungDiagram} (hd : ValidYD d) :
    d.binary_description = pathFrom d.width 0 d.usual_description.reverse := by
  unfold YoungDiagram.binary_description
  have hlen := hd.1
  have hw : ∀ i, i < d.usual_description.length → d.usual_description.getD i 0 ≤ d.width := by
    intro i hi
    have : d.usual_description.getD i 0 ∈ d.usual_description := by
      rw [List.getD_eq_getElem _ 0 hi]
      exact List.getElem_mem hi
    exact validUsual_entries hd.2 _ this
  have hdec := validUsual_dec hd.2
  rw [← hlen]
  have h0 : d.usual_description.length + d.width
      = d.width - 0 + d.usual_description.length := by omega
  rw [h0, binaryAux_eq_pathFrom d.usual_description d.width hw hdec
    d.usual_description.length 0 le_rfl (by
      cases hl : d.usual_description.length with
      | zero => exact Or.inl (by omega)
      | succ k => exact Or.inr (Nat.zero_le _)) (Nat.zero_le _),
    List.take_length]

/-! ### Bridges between the decreasing row form and the increasing path form -/

theorem incBounded_le {x w : Nat} : ∀ {l : List Nat}, incBounded x w l → x ≤ w := by
  intro l
  induction l generalizing x with
  | nil => intro h; exact h
  | cons t ts ih => intro h; exact le_trans h.1 (ih h.2)

theorem incBounded_snoc {w a : Nat} : ∀ {l : List Nat} {x : Nat},
    incBounded x w (l ++ [a]) ↔ incBounded x a l ∧ a ≤ w := by
  intro l
  induction l with
  | nil =>
    intro x
    constructor
    · intro h; exact ⟨h.1, h.2⟩
    · intro h; exact ⟨h.1, h.2⟩
  | cons t ts ih =>
    intro x
    constructor
    · intro h; exact ⟨⟨h.1, (ih.1 h.2).1⟩, (ih.1 h.2).2⟩
    · intro h; exact ⟨h.1.1, ih.2 ⟨h.1.2, h.2⟩⟩

theorem incBounded_getD_ge {x w : Nat} : ∀ {l : List Nat}, incBounded x w l →
    ∀ i, i < l.length → x ≤ l.getD i 0 := by
  intro l
  induction l generalizing x with
  | nil => intro _ i hi; simp at hi
  | cons t ts ih =>
    intro h i hi
    cases i with
    | zero => simpa using h.1
    | succ j =>
      simp only [List.getD_cons_succ]
      exact le_trans h.1 (ih h.2 j (by simpa using hi))

theorem validUsual_iff_incBounded (p : Nat) : ∀ (u : List Nat),
    validUsual p u = true ↔ incBounded 0 p u.reverse := by
  intro u
  induction u generalizing p with
  | nil => simp [validUsual, incBounded]
  | cons a us ih =>
    simp only [validUsual, Bool.and_eq_true, decide_eq_true_eq, List.reverse_cons]
    rw [incBounded_snoc]
    constructor
    · intro h; exact ⟨(ih a).1 h.2, h.1⟩
    · intro h; exact ⟨h.2, (ih a).2 h.1⟩

/-! ### Counting symbols along a path -/

theorem count_pathFrom_U (w : Nat) : ∀ (l : List Nat) (x : Nat),
    (pathFrom w x l).count 'U' = l.length := by
  intro l
  induction l with
  | nil => intro x; simp [pathFrom, List.count_replicate]
  | cons t ts ih =>
    intro x
    simp [pathFrom, List.count_append, List.count_replicate, List.count_cons, ih]

theorem count_pathFrom_R (w : Nat) : ∀ (l : List Nat) (x : Nat), incBounded x w l →
    (pathFrom w x l).count 'R' = w - x := by
  intro l
  induction l with
  | nil => intro x _; simp [pathFrom, List.count_replicate]
  | cons t ts ih =>
    intro x h
    have h1 : x ≤ t := h.1
    have h2 : t ≤ w := incBounded_le h.2
    simp [pathFrom, List.count_append, List.count_replicate, List.count_cons, ih t h.2]
    omega

theorem length_pathFrom (w : Nat) : ∀ (l : List Nat) (x : Nat), incBounded x w l →
    (pathFrom w x l).length = (w - x) + l.length := by
  intro l
  induction l with
  | nil => intro x _; simp [pathFrom]
  | cons t ts ih =>
    intro x h
    have h1 : x ≤ t := h.1
    have h2 : t ≤ w := incBounded_le h.2
    simp [pathFrom, ih t h.2]
    omega

/-! ### Decoding a path -/

theorem columnHeights_replicate_R (c : Nat) : ∀ (k : Nat) (rest : List Char),
    columnHeights (List.replicate k 'R' ++ rest) c = List.replicate k c ++ columnHeights rest c := by
  intro k
  induction k with
  | zero => intro rest; simp
  | succ j ih =>
    intro rest
    rw [List.replicate_succ, List.cons_append]
    rw [show columnHeights ('R' :: (List.replicate j 'R' ++ rest)) c
        = c :: columnHeights (List.replicate j 'R' ++ rest) c from by
      simp [columnHeights]]
    rw [ih rest, List.replicate_succ]
    simp

theorem countGt_append (r : Nat) (a b : List Nat) :
    countGt r (a ++ b) = countGt r a + countGt r b := by
  simp [countGt, List.filter_append]

theorem countGt_replicate (r k c : Nat) :
    countGt r (List.replicate k c) = if r < c then k else 0 := by
  by_cases h : r < c
  · simp [countGt, h, List.filter_replicate]
  · simp [countGt, h, List.filter_replicate]

theorem countGt_columnHeights (w : Nat) : ∀ (l : List Nat) (x c r : Nat),
    incBounded x w l → l.length ≤ c →
    countGt r (columnHeights (pathFrom w x l) c) =
      if r < c - l.length then w - x
      else if r < c then l.getD (c - 1 - r) 0 - x
      else 0 := by
  intro l
  induction l with
  | nil =>
    intro x c r hb _
    have hr : columnHeights (List.replicate (w - x) 'R') c = List.replicate (w - x) c := by
      have h0 := columnHeights_replicate_R c (w - x) []
      simpa [columnHeights] using h0
    simp only [pathFrom, hr, countGt_replicate, List.length_nil, Nat.sub_zero]
    by_cases h : r < c
    · simp [h]
    · simp [h]
  | cons t ts ih =>
    intro x c r hb hlen
    have hxt : x ≤ t := hb.1
    have htw : t ≤ w := incBounded_le hb.2
    have hlen' : ts.length + 1 ≤ c := by simpa using hlen
    simp only [pathFrom, columnHeights_replicate_R]
    have hU : columnHeights ('U' :: pathFrom w t ts) c
        = columnHeights (pathFrom w t ts) (c - 1) := by
      simp [columnHeights]
    rw [hU, countGt_append, countGt_replicate, ih t (c - 1) r hb.2 (by omega)]
    simp only [List.length_cons]
    rcases Nat.lt_or_ge r (c - (ts.length + 1)) with h1 | h1
    · rw [if_pos h1, if_pos (show r < c - 1 - ts.length by omega),
        if_pos (show r < c by omega)]
      omega
    · rw [if_neg (show ¬ r < c - (ts.length + 1) by omega),
        if_neg (show ¬ r < c - 1 - ts.length by omega)]
      rcases Nat.lt_or_ge r (c - 1) with h3 | h3
      · rw [if_pos h3, if_pos (show r < c by omega), if_pos (show r < c by omega)]
        have e1 : c - 1 - 1 - r = c - 2 - r := by omega
        have e2 : c - 1 - r = (c - 2 - r) + 1 := by omega
        rw [e1, e2, List.getD_cons_succ]
        have hge : t ≤ ts.getD (c - 2 - r) 0 := incBounded_getD_ge hb.2 _ (by omega)
        omega
      · rcases Nat.lt_or_ge r c with h2 | h2
        · rw [if_neg (show ¬ r < c - 1 by omega), if_pos h2, if_pos h2]
          have e2 : c - 1 - r = 0 := by omega
          rw [e2, List.getD_cons_zero]
          omega
        · rw [if_neg (show ¬ r < c by omega), if_neg (show ¬ r < c - 1 by omega),
            if_neg (show ¬ r < c by omega)]

theorem range_map_getD_rev (l : List Nat) :
    (List.range l.length).map (fun r => l.getD (l.length - 1 - r) 0) = l.reverse := by
  apply List.ext_getElem
  · simp
  · intro n h1 h2
    simp only [List.getElem_map, List.getElem_range]
    have hn : n < l.length := by simpa using h1
    have hb : l.length - 1 - n < l.length := by omega
    rw [List.getD_eq_getElem l 0 hb, List.getElem_reverse]

/-- Unfolding of the decoder as a plain conditional. -/
theorem decode_eq (s : List Char) :
    Construct_From_Binary_Description s =
      if s.length = s.count 'U' + s.count 'R' then
        YoungDiagram.mk? (s.count 'U') (s.count 'R')
          ((List.range (s.count 'U')).map (fun r => countGt r (columnHeights s (s.count 'U'))))
      else none := rfl

theorem decode_pathFrom (w : Nat) (l : List Nat) (hb : incBounded 0 w l) :
    Construct_From_Binary_Description (pathFrom w 0 l) = some ⟨l.length, w, l.reverse⟩ := by
  have hU := count_pathFrom_U w l 0
  have hR := count_pathFrom_R w l 0 hb
  have hL := length_pathFrom w l 0 hb
  rw [decode_eq, if_pos (by rw [hL, hU, hR]; omega), hU, hR]
  have hmap : (List.range l.length).map
      (fun r => countGt r (columnHeights (pathFrom w 0 l) l.length)) = l.reverse := by
    rw [← range_map_getD_rev l]
    apply List.map_congr_left
    intro a ha
    have haa : a < l.length := List.mem_range.1 ha
    rw [countGt_columnHeights w l 0 l.length a hb le_rfl]
    rw [if_neg (by omega), if_pos haa]
    omega
  rw [hmap]
  unfold YoungDiagram.mk?
  rw [if_pos (by
    simp only [List.length_reverse, Bool.and_eq_true, decide_eq_true_eq]
    refine ⟨by simp, ?_⟩
    rw [validUsual_iff_incBounded, List.reverse_reverse]
    exact hb)]
  simp

theorem pathFrom_shift (w : Nat) : ∀ (l : List Nat) (x : Nat),
    pathFrom (w + 1) (x + 1) (l.map (· + 1)) = pathFrom w x l := by
  intro l
  induction l with
  | nil => intro x; simp [pathFrom, Nat.succ_sub_succ]
  | cons t ts ih =>
    intro x
    simp only [List.map_cons, pathFrom, Nat.succ_sub_succ, ih t]

theorem pathFrom_shift0 (w : Nat) : ∀ (l : List Nat),
    pathFrom (w + 1) 0 (l.map (· + 1)) = 'R' :: pathFrom w 0 l := by
  intro l
  cases l with
  | nil => simp [pathFrom, List.replicate_succ]
  | cons t ts =>
    simp only [List.map_cons, pathFrom, Nat.sub_zero, pathFrom_shift w ts t]
    rw [List.replicate_succ]
    simp

theorem incBounded_shift {x w : Nat} : ∀ {l : List Nat}, incBounded x w l →
    incBounded (x + 1) (w + 1) (l.map (· + 1)) := by
  intro l
  induction l generalizing x with
  | nil => intro h; simpa [incBounded] using h
  | cons t ts ih =>
    intro h
    simp only [List.map_cons]
    exact ⟨Nat.succ_le_succ h.1, ih h.2⟩

theorem exists_pathFrom : ∀ (s : List Char), (∀ c ∈ s, c = 'U' ∨ c = 'R') →
    ∃ l, incBounded 0 (s.count 'R') l ∧ l.length = s.count 'U' ∧
      s = pathFrom (s.count 'R') 0 l := by
  intro s
  induction s with
  | nil =>
    intro _
    exact ⟨[], by simp [incBounded], by simp, by simp [pathFrom]⟩
  | cons c rest ih =>
    intro hall
    obtain ⟨l, hb, hlen, heq⟩ := ih (fun a ha => hall a (List.mem_cons_of_mem c ha))
    rcases hall c (List.mem_cons_self c rest) with rfl | rfl
    · -- leading U
      have hcr : (('U' :: rest).count 'R') = rest.count 'R' := by simp [List.count_cons]
      have hcu : (('U' :: rest).count 'U') = rest.count 'U' + 1 := by simp [List.count_cons]
      refine ⟨0 :: l, ?_, ?_, ?_⟩
      · rw [hcr]
        exact ⟨Nat.zero_le _, hb⟩
      · rw [hcu, List.length_cons, hlen]
      · rw [hcr]
        show 'U' :: rest = pathFrom (rest.count 'R') 0 (0 :: l)
        simp only [pathFrom, Nat.sub_zero, List.replicate_zero, List.nil_append]
        rw [← heq]
    · -- leading R
      have hcr : (('R' :: rest).count 'R') = rest.count 'R' + 1 := by simp [List.count_cons]
      have hcu : (('R' :: rest).count 'U') = rest.count 'U' := by simp [List.count_cons]
      refine ⟨l.map (· + 1), ?_, ?_, ?_⟩
      · rw [hcr]
        have h1 : incBounded 1 (rest.count 'R' + 1) (l.map (· + 1)) := incBounded_shift hb
        cases hml : l.map (· + 1) with
        | nil => exact Nat.zero_le _
        | cons a bs =>
          rw [hml] at h1
          exact ⟨Nat.zero_le _, h1.2⟩
      · rw [hcu, List.length_map, hlen]
      · rw [hcr, pathFrom_shift0 (rest.count 'R') l, ← heq]

theorem countUR_le_length (s : List Char) : s.count 'U' + s.count 'R' ≤ s.length := by
  induction s with
  | nil => simp
  | cons c rest ih =>
    by_cases hcu : c = 'U'
    · subst hcu
      have e : (('U' :: rest).count 'U') = rest.count 'U' + 1 := by simp [List.count_cons]
      have e2 : (('U' :: rest).count 'R') = rest.count 'R' := by simp [List.count_cons]
      rw [e, e2, List.length_cons]
      omega
    · by_cases hcr : c = 'R'
      · subst hcr
        have e : (('R' :: rest).count 'U') = rest.count 'U' := by simp [List.count_cons]
        have e2 : (('R' :: rest).count 'R') = rest.count 'R' + 1 := by simp [List.count_cons]
        rw [e, e2, List.length_cons]
        omega
      · have e : ((c :: rest).count 'U') = rest.count 'U' := by simp [List.count_cons, hcu]
        have e2 : ((c :: rest).count 'R') = rest.count 'R' := by simp [List.count_cons, hcr]
        rw [e, e2, List.length_cons]
        omega

theorem balanced_iff (s : List Char) :
    s.length = s.count 'U' + s.count 'R' ↔ ∀ c ∈ s, c = 'U' ∨ c = 'R' := by
  induction s with
  | nil => simp
  | cons c rest ih =>
    have hle := countUR_le_length rest
    by_cases hcu : c = 'U'
    · subst hcu
      have e : (('U' :: rest).count 'U') = rest.count 'U' + 1 := by simp [List.count_cons]
      have e2 : (('U' :: rest).count 'R') = rest.count 'R' := by simp [List.count_cons]
      rw [List.length_cons, e, e2]
      constructor
      · intro h a ha
        rcases List.mem_cons.1 ha with rfl | ha
        · exact Or.inl rfl
        · exact ih.1 (by omega) a ha
      · intro h
        have := ih.2 (fun a ha => h a (List.mem_cons_of_mem _ ha))
        omega
    · by_cases hcr : c = 'R'
      · subst hcr
        have e : (('R' :: rest).count 'U') = rest.count 'U' := by simp [List.count_cons]
        have e2 : (('R' :: rest).count 'R') = rest.count 'R' + 1 := by simp [List.count_cons]
        rw [List.length_cons, e, e2]
        constructor
        · intro h a ha
          rcases List.mem_cons.1 ha with rfl | ha
          · exact Or.inr rfl
          · exact ih.1 (by omega) a ha
        · intro h
          have := ih.2 (fun a ha => h a (List.mem_cons_of_mem _ ha))
          omega
      · have e : ((c :: rest).count 'U') = rest.count 'U' := by simp [List.count_cons, hcu]
        have e2 : ((c :: rest).count 'R') = rest.count 'R' := by simp [List.count_cons, hcr]
        rw [List.length_cons, e, e2]
        constructor
        · intro h
          omega
        · intro h
          exact absurd (h c (List.mem_cons_self c rest)) (by simp [hcu, hcr])

/-- Decoding is total on balanced strings and a section of encoding: the
decoded diagram is valid, re-encodes to the same string, and has the symbol
counts as its dimensions. -/
theorem decode_total (s : List Char) (hs : s.length = s.count 'U' + s.count 'R') :
    ∃ d, Construct_From_Binary_Description s = some d ∧ ValidYD d ∧
      d.binary_description = s ∧ d.height = s.count 'U' ∧ d.width = s.count 'R' := by
  obtain ⟨l, hb, hlen, heq⟩ := exists_pathFrom s ((balanced_iff s).1 hs)
  refine ⟨⟨l.length, s.count 'R', l.reverse⟩, ?_, ?_, ?_, hlen, rfl⟩
  · have hcR : (pathFrom (s.count 'R') 0 l).count 'R' = s.count 'R' := by
      rw [count_pathFrom_R _ _ _ hb]
      omega
    rw [heq, decode_pathFrom (s.count 'R') l hb, hcR]
  · constructor
    · simp
    · rw [validUsual_iff_incBounded, List.reverse_reverse]
      exact hb
  · have hv : ValidYD ⟨l.length, s.count 'R', l.reverse⟩ := by
      constructor
      · simp
      · rw [validUsual_iff_incBounded, List.reverse_reverse]
        exact hb
    rw [binary_description_eq hv]
    simp only [List.reverse_reverse]
    exact heq.symm

/-- Decoding the binary description of a valid diagram returns the diagram. -/
theorem decode_encode {d : YoungDiagram} (hd : ValidYD d) :
    Construct_From_Binary_Description d.binary_description = some d := by
  rw [binary_description_eq hd]
  have hb : incBounded 0 d.width d.usual_description.reverse := by
    rw [← validUsual_iff_incBounded]
    exact hd.2
  rw [decode_pathFrom d.width d.usual_description.reverse hb]
  simp only [List.length_reverse, List.reverse_reverse, hd.1]

/-- The binary description of a valid diagram is balanced, with the dimensions
as symbol counts. -/
theorem binary_counts {d : YoungDiagram} (hd : ValidYD d) :
    d.binary_description.count 'U' = d.height ∧
    d.binary_description.count 'R' = d.width ∧
    d.binary_description.length = d.height + d.width := by
  have hb : incBounded 0 d.width d.usual_description.reverse := by
    rw [← validUsual_iff_incBounded]
    exact hd.2
  rw [binary_description_eq hd]
  refine ⟨?_, ?_, ?_⟩
  · rw [count_pathFrom_U]
    simpa using hd.1
  · rw [count_pathFrom_R _ _ _ hb]
    omega
  · rw [length_pathFrom _ _ _ hb, List.length_reverse, hd.1]
    omega

/-! ### Rotation of binary descriptions -/

theorem orbitRot_eq_rotate (n : Nat) (s : List Char) (h : s.length = n) :
    orbitRot n s = s.rotate (n - 1) := by
  cases n with
  | zero =>
    have : s = [] := List.eq_nil_of_length_eq_zero h
    subst this
    rfl
  | succ k =>
    unfold orbitRot
    rw [List.rotate_eq_drop_append_take (by omega), h]

theorem orbitRot_length {n : Nat} {s : List Char} (h : s.length = n) :
    (orbitRot n s).length = n := by
  rw [orbitRot_eq_rotate n s h, List.length_rotate, h]

theorem orbitRot_iter_length {n : Nat} {s : List Char} (h : s.length = n) :
    ∀ k, ((orbitRot n)^[k] s).length = n := by
  intro k
  induction k with
  | zero => simpa using h
  | succ j ih =>
    rw [Function.iterate_succ_apply']
    exact orbitRot_length ih

theorem orbitRot_iter_eq_rotate {n : Nat} {s : List Char} (h : s.length = n) :
    ∀ k, (orbitRot n)^[k] s = s.rotate (k * (n - 1)) := by
  intro k
  induction k with
  | zero => simp
  | succ j ih =>
    rw [Function.iterate_succ_apply', ih,
      orbitRot_eq_rotate n _ (by rw [List.length_rotate, h]), List.rotate_rotate]
    congr 1
    ring

theorem orbitRot_iter_id {n : Nat} {s : List Char} (h : s.length = n) :
    (orbitRot n)^[n] s = s := by
  rw [orbitRot_iter_eq_rotate h n, ← List.rotate_mod, h, Nat.mul_mod_right,
    List.rotate_zero]

theorem orbitRot_iter_count {n : Nat} {s : List Char} (h : s.length = n) (k : Nat)
    (a : Char) : ((orbitRot n)^[k] s).count a = s.count a := by
  induction k with
  | zero => simp
  | succ j ih =>
    rw [Function.iterate_succ_apply', orbitRot_eq_rotate n _ (orbitRot_iter_length h j)]
    rw [(List.rotate_perm _ _).count_eq a, ih]

/-! ### The cyclic action on valid diagrams -/

/-- Unfolding of `cyclic_action` as a plain expression. -/
theorem cyclic_action_eq (d : YoungDiagram) (steps : Int) :
    d.cyclic_action steps =
      (if 0 < d.height + d.width then
        Construct_From_Binary_Description
          (d.binary_description.drop
              ((d.height + d.width) - (steps % ((d.height + d.width : Nat) : Int)).toNat) ++
            (if (steps % ((d.height + d.width : Nat) : Int)).toNat = 0 then []
             else d.binary_description.take
                (d.binary_description.length - (steps % ((d.height + d.width : Nat) : Int)).toNat)))
      else none) := rfl

theorem decode_nil : Construct_From_Binary_Description ([] : List Char) = some ⟨0, 0, []⟩ := by
  rfl

theorem cyclic_action_zero_res {d : YoungDiagram} (hd : ValidYD d)
    (hn : 0 < d.height + d.width) {steps : Int}
    (hz : (steps % ((d.height + d.width : Nat) : Int)).toNat = 0) :
    d.cyclic_action steps = some ⟨0, 0, []⟩ := by
  rw [cyclic_action_eq, if_pos hn, hz]
  have hlen := (binary_counts hd).2.2
  rw [if_pos rfl, Nat.sub_zero, List.drop_of_length_le (by omega), List.append_nil,
    decode_nil]

theorem cyclic_action_pos_res {d : YoungDiagram} (hd : ValidYD d)
    (hn : 0 < d.height + d.width) {steps : Int}
    (hz : (steps % ((d.height + d.width : Nat) : Int)).toNat ≠ 0) :
    ∃ e, d.cyclic_action steps = some e ∧ ValidYD e ∧
      e.binary_description =
        d.binary_description.rotate
          ((d.height + d.width) - (steps % ((d.height + d.width : Nat) : Int)).toNat) ∧
      e.height = d.height ∧ e.width = d.width := by
  have hlen := (binary_counts hd).2.2
  have hcU := (binary_counts hd).1
  have hcR := (binary_counts hd).2.1
  set n := d.height + d.width with hn0
  set σ := (steps % ((n : Nat) : Int)).toNat with hσ
  have hσn : σ < n := by
    have h1 : (steps % ((n : Nat) : Int)) < (n : Int) :=
      Int.emod_lt_of_pos steps (by exact_mod_cast hn)
    omega
  have hrot : d.binary_description.drop (n - σ) ++
      d.binary_description.take (d.binary_description.length - σ) =
      d.binary_description.rotate (n - σ) := by
    rw [hlen, List.rotate_eq_drop_append_take (by omega)]
  have hbal : (d.binary_description.rotate (n - σ)).length =
      (d.binary_description.rotate (n - σ)).count 'U' +
        (d.binary_description.rotate (n - σ)).count 'R' := by
    rw [List.length_rotate, (List.rotate_perm _ _).count_eq, (List.rotate_perm _ _).count_eq,
      hcU, hcR, hlen]
  obtain ⟨e, he1, he2, he3, he4, he5⟩ := decode_total _ hbal
  refine ⟨e, ?_, he2, he3, ?_, ?_⟩
  · rw [cyclic_action_eq, if_pos hn, ← hσ, if_neg hz, ← hn0, hrot]
    exact he1
  · rw [he4, (List.rotate_perm _ _).count_eq, hcU]
  · rw [he5, (List.rotate_perm _ _).count_eq, hcR]

/-- Rotating by one step, for perimeter at least 2: the new diagram's binary
description is the one-step right rotation, and the dimensions persist. -/
theorem cyclic_action_one {d : YoungDiagram} (hd : ValidYD d)
    (hn : 2 ≤ d.height + d.width) :
    ∃ e, d.cyclic_action 1 = some e ∧ ValidYD e ∧
      e.binary_description = orbitRot (d.height + d.width) d.binary_description ∧
      e.height = d.height ∧ e.width = d.width := by
  have hσ : ((1 : Int) % ((d.height + d.width : Nat) : Int)).toNat = 1 := by
    have : ((1 : Int) % ((d.height + d.width : Nat) : Int)) = 1 := by
      apply Int.emod_eq_of_lt (by omega) (by exact_mod_cast hn)
    rw [this]
    rfl
  obtain ⟨e, h1, h2, h3, h4, h5⟩ := cyclic_action_pos_res hd (by omega) (by rw [hσ]; omega)
  refine ⟨e, h1, h2, ?_, h4, h5⟩
  rw [h3, hσ, orbitRot_eq_rotate _ _ (binary_counts hd).2.2]

/-! ### Correctness of the orbit-length loop -/

theorem orbitLengthAux_spec (n : Nat) (b : List Char) (m : Nat)
    (hmin : ∀ j, 0 < j → j < m → (orbitRot n)^[j] b ≠ b)
    (hPm : (orbitRot n)^[m] b = b) :
    ∀ (fuel c : Nat), c < m → m ≤ c + fuel →
      orbitLengthAux n b ((orbitRot n)^[c] b) c fuel = some m := by
  intro fuel
  induction fuel with
  | zero => intro c h1 h2; omega
  | succ f ih =>
    intro c h1 h2
    show (if orbitRot n ((orbitRot n)^[c] b) = b then some (c + 1)
      else orbitLengthAux n b (orbitRot n ((orbitRot n)^[c] b)) (c + 1) f) = some m
    rw [← Function.iterate_succ_apply' (orbitRot n) c b]
    by_cases hstep : (orbitRot n)^[c + 1] b = b
    · rw [if_pos hstep]
      have : ¬ (c + 1 < m) := fun hlt => hmin (c + 1) (by omega) hlt hstep
      have : c + 1 = m := by omega
      rw [this]
    · rw [if_neg hstep]
      have hne : c + 1 ≠ m := by
        intro he
        rw [he] at hstep
        exact hstep hPm
      exact ih (c + 1) (by omega) (by omega)

/-- `orbit_length` returns the minimal positive period of the binary
description under the one-step rotation, and that period divides the
half-perimeter. -/
theorem orbit_length_spec {d : YoungDiagram} (hd : ValidYD d) :
    ∃ k, d.orbit_length = some k ∧ 0 < k ∧
      (orbitRot (d.height + d.width))^[k] d.binary_description = d.binary_description ∧
      (∀ j, 0 < j → j < k →
        (orbitRot (d.height + d.width))^[j] d.binary_description ≠ d.binary_description) ∧
      k ∣ (d.height + d.width) := by
  set n := d.height + d.width with hn0
  set b := d.binary_description with hb0
  have hlen : b.length = n := (binary_counts hd).2.2
  rcases Nat.eq_zero_or_pos n with hz | hpos
  · -- empty diagram: one rotation of the empty string already matches
    have hbnil : b = [] := List.eq_nil_of_length_eq_zero (by omega)
    refine ⟨1, ?_, by omega, ?_, by omega, by simp [hz]⟩
    · show orbitLengthAux n b b 0 (n + 1) = some 1
      rw [hz, hbnil]
      rfl
    · rw [hbnil]
      simp [orbitRot]
  · have hex : ∃ k, 0 < k ∧ (orbitRot n)^[k] b = b := ⟨n, hpos, orbitRot_iter_id hlen⟩
    set m := Nat.find hex with hmdef
    obtain ⟨hm0, hPm⟩ := Nat.find_spec hex
    have hmin : ∀ j, 0 < j → j < m → (orbitRot n)^[j] b ≠ b := by
      intro j hj0 hjm hPj
      exact (Nat.find_min hex hjm) ⟨hj0, hPj⟩
    have hmn : m ≤ n := Nat.find_min' hex ⟨hpos, orbitRot_iter_id hlen⟩
    refine ⟨m, ?_, hm0, hPm, hmin, ?_⟩
    · show orbitLengthAux n b b 0 (n + 1) = some m
      have h0 : (orbitRot n)^[0] b = b := rfl
      rw [← h0]
      exact orbitLengthAux_spec n b m hmin hPm (n + 1) 0 (by omega) (by omega)
    · -- minimal period divides n
      have hper : ∀ q, (orbitRot n)^[m * q] b = b := by
        intro q
        induction q with
        | zero => simp
        | succ p ihp =>
          have : m * (p + 1) = m * p + m := by ring
          rw [this, Function.iterate_add_apply, hPm, ihp]
      have hr : (orbitRot n)^[n % m] b = b := by
        have hsplit : n = n % m + m * (n / m) := by
          have := Nat.div_add_mod n m
          omega
        have : (orbitRot n)^[n] b = (orbitRot n)^[n % m] ((orbitRot n)^[m * (n / m)] b) := by
          rw [← Function.iterate_add_apply, ← hsplit]
        rw [orbitRot_iter_id hlen, hper (n / m)] at this
        exact this.symm
      have hrz : n % m = 0 := by
        by_contra hnz
        have hlt : n % m < m := Nat.mod_lt n hm0
        exact hmin (n % m) (by omega) hlt hr
      exact Nat.dvd_of_mod_eq_zero hrz

/-! ### The orbit of a diagram, diagram by diagram -/

/-- The diagram decoded from a string (with a junk default; on balanced
strings the decode always succeeds). -/
def diagOfStr (s : List Char) : YoungDiagram :=
  (Construct_From_Binary_Description s).getD default

theorem diagOfStr_spec {s : List Char} (hs : s.length = s.count 'U' + s.count 'R') :
    Construct_From_Binary_Description s = some (diagOfStr s) ∧ ValidYD (diagOfStr s) ∧
      (diagOfStr s).binary_description = s ∧
      (diagOfStr s).height = s.count 'U' ∧ (diagOfStr s).width = s.count 'R' := by
  obtain ⟨d, h1, h2, h3, h4, h5⟩ := decode_total s hs
  have he : diagOfStr s = d := by
    unfold diagOfStr
    rw [h1]
    rfl
  rw [he]
  exact ⟨h1, h2, h3, h4, h5⟩

theorem binary_balanced {d : YoungDiagram} (hd : ValidYD d) :
    d.binary_description.length =
      d.binary_description.count 'U' + d.binary_description.count 'R' := by
  obtain ⟨h1, h2, h3⟩ := binary_counts hd
  omega

theorem iter_balanced {d : YoungDiagram} (hd : ValidYD d) (j : Nat) :
    ((orbitRot (d.height + d.width))^[j] d.binary_description).length =
      ((orbitRot (d.height + d.width))^[j] d.binary_description).count 'U' +
        ((orbitRot (d.height + d.width))^[j] d.binary_description).count 'R' := by
  have hlen : d.binary_description.length = d.height + d.width := (binary_counts hd).2.2
  rw [orbitRot_iter_length hlen, orbitRot_iter_count hlen, orbitRot_iter_count hlen]
  exact (binary_balanced hd).symm ▸ (by
    obtain ⟨h1, h2, h3⟩ := binary_counts hd
    omega)

/-- The diagram at position `j` of the orbit walk. -/
theorem diagIter_spec {d : YoungDiagram} (hd : ValidYD d) (j : Nat) :
    ValidYD (diagOfStr ((orbitRot (d.height + d.width))^[j] d.binary_description)) ∧
    (diagOfStr ((orbitRot (d.height + d.width))^[j] d.binary_description)).binary_description
      = (orbitRot (d.height + d.width))^[j] d.binary_description ∧
    (diagOfStr ((orbitRot (d.height + d.width))^[j] d.binary_description)).height = d.height ∧
    (diagOfStr ((orbitRot (d.height + d.width))^[j] d.binary_description)).width = d.width := by
  have hlen : d.binary_description.length = d.height + d.width := (binary_counts hd).2.2
  obtain ⟨g1, g2, g3, g4, g5⟩ := diagOfStr_spec (iter_balanced hd j)
  refine ⟨g2, g3, ?_, ?_⟩
  · rw [g4, orbitRot_iter_count hlen, (binary_counts hd).1]
  · rw [g5, orbitRot_iter_count hlen, (binary_counts hd).2.1]

theorem diagOfStr_binary {d : YoungDiagram} (hd : ValidYD d) :
    diagOfStr d.binary_description = d := by
  unfold diagOfStr
  rw [decode_encode hd]
  rfl

/-- One generator step of `cyclic_orbit`: from position `j` to `j + 1`. -/
theorem diagIter_step {d : YoungDiagram} (hd : ValidYD d) (hn : 2 ≤ d.height + d.width)
    (j : Nat) :
    (diagOfStr ((orbitRot (d.height + d.width))^[j] d.binary_description)).cyclic_action 1
      = some (diagOfStr ((orbitRot (d.height + d.width))^[j + 1] d.binary_description)) := by
  obtain ⟨hv, hbin, hh, hw⟩ := diagIter_spec hd j
  have hn2 : 2 ≤ (diagOfStr ((orbitRot (d.height + d.width))^[j] d.binary_description)).height
      + (diagOfStr ((orbitRot (d.height + d.width))^[j] d.binary_description)).width := by
    rw [hh, hw]; exact hn
  obtain ⟨e, he1, he2, he3, he4, he5⟩ := cyclic_action_one hv hn2
  rw [he1]
  congr 1
  have hbb : e.binary_description
      = (orbitRot (d.height + d.width))^[j + 1] d.binary_description := by
    rw [he3, hbin, hh, hw, Function.iterate_succ_apply']
  obtain ⟨k1, k2, k3, k4⟩ := diagIter_spec hd (j + 1)
  have hdec1 : Construct_From_Binary_Description e.binary_description = some e :=
    decode_encode he2
  rw [hbb] at hdec1
  have hdec2 := (diagOfStr_spec (iter_balanced hd (j + 1))).1
  rw [hdec1] at hdec2
  exact Option.some.inj hdec2

theorem diagIter_eq_iff {d : YoungDiagram} (hd : ValidYD d) (j : Nat) :
    diagOfStr ((orbitRot (d.height + d.width))^[j] d.binary_description) = d ↔
      (orbitRot (d.height + d.width))^[j] d.binary_description = d.binary_description := by
  constructor
  · intro h
    have hbin := (diagIter_spec hd j).2.1
    rw [h] at hbin
    exact hbin.symm
  · intro h
    rw [h]
    exact diagOfStr_binary hd

theorem getD_range_map {α : Type} [Inhabited α] (f : Nat → α) (k i : Nat) (h : i < k) :
    ((List.range k).map f).getD i default = f i := by
  have hi : i < ((List.range k).map f).length := by simpa using h
  rw [List.getD_eq_getElem _ _ hi, List.getElem_map, List.getElem_range]

/-- Unfolding of one `cyclic_orbit` generator step whose rotation succeeds. -/
theorem cyclicOrbitAux_succ_some (first cur next : YoungDiagram) (f : Nat)
    (h : cur.cyclic_action 1 = some next) :
    cyclicOrbitAux first cur (f + 1) =
      (if next = first then GenRes.finished [cur]
       else match cyclicOrbitAux first next f with
         | GenRes.finished l => GenRes.finished (cur :: l)
         | GenRes.raised l => GenRes.raised (cur :: l)
         | GenRes.fuelOut l => GenRes.fuelOut (cur :: l)) := by
  show (match cur.cyclic_action 1 with
    | none => GenRes.raised [cur]
    | some next =>
      if next = first then GenRes.finished [cur]
      else
        match cyclicOrbitAux first next f with
        | GenRes.finished l => GenRes.finished (cur :: l)
        | GenRes.raised l => GenRes.raised (cur :: l)
        | GenRes.fuelOut l => GenRes.fuelOut (cur :: l)) = _
  rw [h]

/-- The full run of the `cyclic_orbit` generator, for minimal period `m`. -/
theorem cyclicOrbitAux_run {d : YoungDiagram} (hd : ValidYD d)
    (hn : 2 ≤ d.height + d.width) {m : Nat} (hm0 : 0 < m)
    (hPm : (orbitRot (d.height + d.width))^[m] d.binary_description = d.binary_description)
    (hmin : ∀ j, 0 < j → j < m →
      (orbitRot (d.height + d.width))^[j] d.binary_description ≠ d.binary_description) :
    ∀ (fuel j : Nat), j < m → m - j ≤ fuel →
      cyclicOrbitAux d (diagOfStr ((orbitRot (d.height + d.width))^[j] d.binary_description)) fuel
        = GenRes.finished ((List.range (m - j)).map
            (fun i => diagOfStr ((orbitRot (d.height + d.width))^[j + i] d.binary_description))) := by
  intro fuel
  induction fuel with
  | zero => intro j h1 h2; omega
  | succ f ih =>
    intro j h1 h2
    rw [cyclicOrbitAux_succ_some d _ _ f (diagIter_step hd hn j)]
    by_cases hend : j + 1 = m
    · rw [if_pos (by
        rw [diagIter_eq_iff hd (j + 1), hend]
        exact hPm)]
      have hmj : m - j = 1 := by omega
      rw [hmj]
      simp [List.range_succ]
    · have hj1 : j + 1 < m := by omega
      rw [if_neg (by
        rw [diagIter_eq_iff hd (j + 1)]
        exact hmin (j + 1) (by omega) hj1)]
      rw [ih (j + 1) hj1 (by omega)]
      change GenRes.finished _ = _
      congr 1
      have hmj : m - j = (m - (j + 1)) + 1 := by omega
      rw [hmj, List.range_succ_eq_map, List.map_cons, Nat.add_zero, List.map_map]
      congr 1
      apply List.map_congr_left
      intro a _
      show diagOfStr ((orbitRot (d.height + d.width))^[j + 1 + a] d.binary_description)
        = diagOfStr ((orbitRot (d.height + d.width))^[j + Nat.succ a] d.binary_description)
      have harith : j + 1 + a = j + Nat.succ a := by omega
      rw [harith]

/-! ### Complement: reversing a path -/

theorem pathFrom_snoc (W b : Nat) (hbW : b ≤ W) : ∀ (l : List Nat) (x : Nat),
    incBounded x b l →
    pathFrom W x (l ++ [b]) = pathFrom b x l ++ 'U' :: List.replicate (W - b) 'R' := by
  intro l
  induction l with
  | nil =>
    intro x _
    simp [pathFrom]
  | cons t ts ih =>
    intro x hb
    simp only [List.cons_append, pathFrom, List.append_eq]
    rw [ih t hb.2]
    simp [List.append_assoc]

theorem incBounded_rev_map {w : Nat} : ∀ {l : List Nat} {x : Nat}, incBounded x w l →
    incBounded 0 (w - x) (l.reverse.map (fun t => w - t)) := by
  intro l
  induction l with
  | nil => intro x _; exact Nat.zero_le _
  | cons t ts ih =>
    intro x hb
    have hxt : x ≤ t := hb.1
    have htw : t ≤ w := incBounded_le hb.2
    simp only [List.reverse_cons, List.map_append, List.map_cons, List.map_nil]
    rw [incBounded_snoc]
    exact ⟨ih hb.2, by omega⟩

theorem pathFrom_reverse (w : Nat) : ∀ (l : List Nat) (x : Nat), incBounded x w l →
    (pathFrom w x l).reverse = pathFrom (w - x) 0 (l.reverse.map (fun t => w - t)) := by
  intro l
  induction l with
  | nil =>
    intro x _
    simp [pathFrom, List.reverse_replicate]
  | cons t ts ih =>
    intro x hb
    have hxt : x ≤ t := hb.1
    have htw : t ≤ w := incBounded_le hb.2
    simp only [pathFrom, List.reverse_append, List.reverse_cons, List.reverse_replicate,
      List.map_append, List.map_cons, List.map_nil]
    rw [ih t hb.2]
    rw [pathFrom_snoc (w - x) (w - t) (by omega) _ 0 (incBounded_rev_map hb.2)]
    have harith : w - x - (w - t) = t - x := by omega
    rw [harith]
    simp

theorem sum_map_sub {w : Nat} : ∀ {u : List Nat}, (∀ a ∈ u, a ≤ w) →
    (u.map (fun t => w - t)).sum + u.sum = u.length * w := by
  intro u
  induction u with
  | nil => simp
  | cons a us ih =>
    intro h
    have ha : a ≤ w := h a (List.mem_cons_self a us)
    have hs := ih (fun b hb => h b (List.mem_cons_of_mem a hb))
    simp only [List.map_cons, List.sum_cons, List.length_cons]
    have : (us.length + 1) * w = us.length * w + w := by ring
    omega

instance (d : YoungDiagram) : Decidable (ValidYD d) :=
  decidable_of_iff
    (d.usual_description.length = d.height ∧ validUsual d.width d.usual_description = true)
    Iff.rfl

/-- `complement` always succeeds on a valid diagram; the result is valid, has
the same box, and its row lengths are the reversed co-row-lengths. -/
theorem complement_spec {d : YoungDiagram} (hd : ValidYD d) :
    ∃ c, d.complement = some c ∧ ValidYD c ∧ c.height = d.height ∧ c.width = d.width ∧
      c.usual_description
        = (d.usual_description.map (fun t => d.width - t)).reverse := by
  have hb : incBounded 0 d.width d.usual_description.reverse := by
    rw [← validUsual_iff_incBounded]
    exact hd.2
  have hrev : d.binary_description.reverse
      = pathFrom d.width 0 (d.usual_description.map (fun t => d.width - t)) := by
    rw [binary_description_eq hd, pathFrom_reverse d.width _ 0 hb]
    simp
  have hb2 : incBounded 0 d.width (d.usual_description.map (fun t => d.width - t)) := by
    have := incBounded_rev_map hb
    simpa using this
  refine ⟨⟨(d.usual_description.map (fun t => d.width - t)).length, d.width,
      (d.usual_description.map (fun t => d.width - t)).reverse⟩, ?_, ?_, ?_, rfl, rfl⟩
  · show Construct_From_Binary_Description d.binary_description.reverse = _
    rw [hrev, decode_pathFrom d.width _ hb2]
  · constructor
    · simp
    · rw [validUsual_iff_incBounded, List.reverse_reverse]
      exact hb2
  · simp [hd.1]

/-! ## Claim C1 -/

/-- C1: a diagram built by the row-lengths constructor from valid inputs
decodes from its own binary description back to an equal diagram (same
height, width and row lengths): the two constructors are mutual inverses. -/
theorem C1_round_trip (height width : Nat) (usual : List Nat) (d : YoungDiagram)
    (h : YoungDiagram.mk? height width usual = some d) :
    Construct_From_Binary_Description d.binary_description = some d :=
  decode_encode (mk?_valid h)

theorem C1_round_trip_witness :
    Construct_From_Binary_Description
      (⟨2, 2, [2, 1]⟩ : YoungDiagram).binary_description = some ⟨2, 2, [2, 1]⟩ :=
  C1_round_trip 2 2 [2, 1] ⟨2, 2, [2, 1]⟩ (by rfl)

/-! ## Claim C2 -/

/-- C2 (code bug): rotating by the full half-perimeter is NOT the identity in
the code.  For the diagram of height 1, width 1, row lengths (1,), the call
`cyclic_action(2)` reduces `steps` to `0` and the Python slice `old[:-0]` is
empty, so the code returns the empty 0-by-0 diagram instead of the diagram
itself. -/
theorem C2_rotate_perimeter_bug :
    (⟨1, 1, [1]⟩ : YoungDiagram).cyclic_action 2 = some ⟨0, 0, []⟩ ∧
      (⟨0, 0, []⟩ : YoungDiagram) ≠ (⟨1, 1, [1]⟩ : YoungDiagram) := by
  constructor
  · rfl
  · decide

/-! ## Claim C5 -/

/-- C5: `orbit_length` returns the minimal positive number of one-step
rotations after which the binary description first returns to itself, and
this period divides the half-perimeter `height + width`. -/
theorem C5_orbit_length_minimal_divides (d : YoungDiagram) (hd : ValidYD d) :
    ∃ k, d.orbit_length = some k ∧ 0 < k ∧
      (orbitRot (d.height + d.width))^[k] d.binary_description = d.binary_description ∧
      (∀ j, 0 < j → j < k →
        (orbitRot (d.height + d.width))^[j] d.binary_description ≠ d.binary_description) ∧
      k ∣ (d.height + d.width) :=
  orbit_length_spec hd

theorem C5_orbit_length_minimal_divides_witness :
    ∃ k, (⟨2, 2, [2, 1]⟩ : YoungDiagram).orbit_length = some k ∧ 0 < k ∧
      (orbitRot ((⟨2, 2, [2, 1]⟩ : YoungDiagram).height + (⟨2, 2, [2, 1]⟩ : YoungDiagram).width))^[k]
          (⟨2, 2, [2, 1]⟩ : YoungDiagram).binary_description
        = (⟨2, 2, [2, 1]⟩ : YoungDiagram).binary_description ∧
      (∀ j, 0 < j → j < k →
        (orbitRot ((⟨2, 2, [2, 1]⟩ : YoungDiagram).height + (⟨2, 2, [2, 1]⟩ : YoungDiagram).width))^[j]
            (⟨2, 2, [2, 1]⟩ : YoungDiagram).binary_description
          ≠ (⟨2, 2, [2, 1]⟩ : YoungDiagram).binary_description) ∧
      k ∣ ((⟨2, 2, [2, 1]⟩ : YoungDiagram).height + (⟨2, 2, [2, 1]⟩ : YoungDiagram).width) :=
  C5_orbit_length_minimal_divides ⟨2, 2, [2, 1]⟩ (by decide)

/-! ## Claim C6 -/

/-- C6 is false as stated: for the valid diagram of height 1, width 0 (one
empty row), `cyclic_orbit` yields the diagram, then — because rotating by
`1 % 1 = 0` steps hits the empty-slice bug — yields the empty 0-by-0 diagram,
and then raises on the next step; it does not terminate cleanly within
`perimeter = 1` elements when rotation returns to the start. -/
theorem C6_counterexample :
    ValidYD ⟨1, 0, [0]⟩ ∧
      (⟨1, 0, [0]⟩ : YoungDiagram).cyclic_orbit
          ((⟨1, 0, [0]⟩ : YoungDiagram).height + (⟨1, 0, [0]⟩ : YoungDiagram).width + 1)
        = GenRes.raised [⟨1, 0, [0]⟩, ⟨0, 0, []⟩] := by
  decide

/-- C6 amended: for every valid diagram whose perimeter is at least 2, the
`cyclic_orbit` generator (run with fuel `perimeter + 1`) terminates normally;
it starts at `d`, every yielded element is followed by its one-step rotation,
the walk never revisits `d` before the end, and it stops exactly when the
rotation returns `d`, after at most `perimeter` elements. -/
theorem C6_amended_orbit_finite (d : YoungDiagram) (hd : ValidYD d)
    (hn : 2 ≤ d.height + d.width) :
    ∃ l, d.cyclic_orbit (d.height + d.width + 1) = GenRes.finished l ∧
      0 < l.length ∧ l.length ≤ d.height + d.width ∧
      l.getD 0 default = d ∧
      (∀ i, i + 1 < l.length →
        (l.getD i default).cyclic_action 1 = some (l.getD (i + 1) default) ∧
          l.getD (i + 1) default ≠ d) ∧
      (l.getD (l.length - 1) default).cyclic_action 1 = some d := by
  obtain ⟨m, _, hm0, hPm, hmin, hdvd⟩ := orbit_length_spec hd
  have hmn : m ≤ d.height + d.width := Nat.le_of_dvd (by omega) hdvd
  have hrun := cyclicOrbitAux_run hd hn hm0 hPm hmin (d.height + d.width + 1) 0
    (by omega) (by omega)
  rw [Nat.sub_zero] at hrun
  have hd0 : diagOfStr ((orbitRot (d.height + d.width))^[0] d.binary_description) = d := by
    show diagOfStr d.binary_description = d
    exact diagOfStr_binary hd
  refine ⟨(List.range m).map
      (fun i => diagOfStr ((orbitRot (d.height + d.width))^[i] d.binary_description)),
    ?_, by simpa using hm0, by simpa using hmn, ?_, ?_, ?_⟩
  · show d.cyclic_orbit (d.height + d.width + 1) = _
    unfold YoungDiagram.cyclic_orbit
    rw [hd0] at hrun
    rw [hrun]
    congr 1
    apply List.map_congr_left
    intro a _
    rw [Nat.zero_add]
  · rw [getD_range_map _ m 0 hm0]
    exact hd0
  · intro i hi
    have hilen : i + 1 < m := by simpa using hi
    rw [getD_range_map _ m i (by omega), getD_range_map _ m (i + 1) hilen]
    constructor
    · exact diagIter_step hd hn i
    · intro heq
      exact hmin (i + 1) (by omega) hilen ((diagIter_eq_iff hd (i + 1)).1 heq)
  · have hlen : ((List.range m).map
        (fun i => diagOfStr ((orbitRot (d.height + d.width))^[i] d.binary_description))).length
        = m := by simp
    rw [hlen, getD_range_map _ m (m - 1) (by omega), diagIter_step hd hn (m - 1)]
    have hm1 : m - 1 + 1 = m := by omega
    rw [hm1, hPm, diagOfStr_binary hd]

theorem C6_amended_orbit_finite_witness :
    ∃ l, (⟨2, 2, [2, 1]⟩ : YoungDiagram).cyclic_orbit
        ((⟨2, 2, [2, 1]⟩ : YoungDiagram).height + (⟨2, 2, [2, 1]⟩ : YoungDiagram).width + 1)
        = GenRes.finished l ∧
      0 < l.length ∧
      l.length ≤ (⟨2, 2, [2, 1]⟩ : YoungDiagram).height + (⟨2, 2, [2, 1]⟩ : YoungDiagram).width ∧
      l.getD 0 default = ⟨2, 2, [2, 1]⟩ ∧
      (∀ i, i + 1 < l.length →
        (l.getD i default).cyclic_action 1 = some (l.getD (i + 1) default) ∧
          l.getD (i + 1) default ≠ ⟨2, 2, [2, 1]⟩) ∧
      (l.getD (l.length - 1) default).cyclic_action 1 = some ⟨2, 2, [2, 1]⟩ :=
  C6_amended_orbit_finite ⟨2, 2, [2, 1]⟩ (by decide) (by decide)

/-! ## Claim C7 -/

/-- C7 is false as stated: the valid diagram of height 1, width 0 has a zero
box dimension, yet `is_upper_triangular` returns the value `true` instead of
failing, and `cyclic_action(1)` also returns a value (the empty diagram). -/
theorem C7_counterexample :
    ValidYD ⟨1, 0, [0]⟩ ∧
      (⟨1, 0, [0]⟩ : YoungDiagram).width = 0 ∧
      (⟨1, 0, [0]⟩ : YoungDiagram).is_upper_triangular = some true ∧
      (⟨1, 0, [0]⟩ : YoungDiagram).cyclic_action 1 = some ⟨0, 0, []⟩ := by
  decide

/-- C7 amended: on valid diagrams, `is_upper_triangular` fails exactly when
`height = 0`, `slope` fails exactly when `width = 0`, and `cyclic_action`
fails exactly when `height + width = 0` (both dimensions zero). -/
theorem C7_amended_failure_conditions (d : YoungDiagram) (hd : ValidYD d) :
    (d.is_upper_triangular = none ↔ d.height = 0) ∧
    (d.slope = none ↔ d.width = 0) ∧
    (∀ steps : Int, d.cyclic_action steps = none ↔ d.height + d.width = 0) := by
  refine ⟨?_, ?_, ?_⟩
  · unfold YoungDiagram.is_upper_triangular
    by_cases h : 0 < d.height
    · rw [if_pos h]
      simp
      omega
    · rw [if_neg h]
      simp
      omega
  · unfold YoungDiagram.slope
    by_cases h : 0 < d.width
    · rw [if_pos h]
      simp
      omega
    · rw [if_neg h]
      simp
      omega
  · intro steps
    by_cases h : 0 < d.height + d.width
    · constructor
      · intro hnone
        by_cases hz : (steps % ((d.height + d.width : Nat) : Int)).toNat = 0
        · rw [cyclic_action_zero_res hd h hz] at hnone
          cases hnone
        · obtain ⟨e, he, _⟩ := cyclic_action_pos_res hd h hz
          rw [he] at hnone
          cases hnone
      · intro hz
        omega
    · constructor
      · intro _
        omega
      · intro _
        rw [cyclic_action_eq, if_neg h]

theorem C7_amended_failure_conditions_witness :
    ((⟨1, 0, [0]⟩ : YoungDiagram).slope = none ↔ (⟨1, 0, [0]⟩ : YoungDiagram).width = 0) ∧
      ((⟨1, 0, [0]⟩ : YoungDiagram).cyclic_action 3 = none ↔
        (⟨1, 0, [0]⟩ : YoungDiagram).height + (⟨1, 0, [0]⟩ : YoungDiagram).width = 0) :=
  ⟨(C7_amended_failure_conditions ⟨1, 0, [0]⟩ (by decide)).2.1,
    (C7_amended_failure_conditions ⟨1, 0, [0]⟩ (by decide)).2.2 3⟩

/-! ## Claim C9 -/

/-- C9: on a valid diagram with positive perimeter, `complement` returns a
diagram with the same height and width, and `cyclic_action(steps)` returns a
diagram with the same height and width whenever `steps` is not congruent to 0
modulo the perimeter. -/
theorem C9_box_invariance (d : YoungDiagram) (hd : ValidYD d)
    (hn : 0 < d.height + d.width) :
    (∃ c, d.complement = some c ∧ c.height = d.height ∧ c.width = d.width) ∧
    (∀ steps : Int, (steps % ((d.height + d.width : Nat) : Int)).toNat ≠ 0 →
      ∃ e, d.cyclic_action steps = some e ∧ e.height = d.height ∧ e.width = d.width) := by
  constructor
  · obtain ⟨c, h1, h2, h3, h4, h5⟩ := complement_spec hd
    exact ⟨c, h1, h3, h4⟩
  · intro steps hz
    obtain ⟨e, h1, _, _, h4, h5⟩ := cyclic_action_pos_res hd hn hz
    exact ⟨e, h1, h4, h5⟩

theorem C9_box_invariance_witness :
    (∃ c, (⟨2, 2, [2, 1]⟩ : YoungDiagram).complement = some c ∧
      c.height = (⟨2, 2, [2, 1]⟩ : YoungDiagram).height ∧
      c.width = (⟨2, 2, [2, 1]⟩ : YoungDiagram).width) ∧
    (∃ e, (⟨2, 2, [2, 1]⟩ : YoungDiagram).cyclic_action 1 = some e ∧
      e.height = (⟨2, 2, [2, 1]⟩ : YoungDiagram).height ∧
      e.width = (⟨2, 2, [2, 1]⟩ : YoungDiagram).width) :=
  ⟨(C9_box_invariance ⟨2, 2, [2, 1]⟩ (by decide) (by decide)).1,
    (C9_box_invariance ⟨2, 2, [2, 1]⟩ (by decide) (by decide)).2 1 (by decide)⟩

/-! ## Claim C10 -/

/-- C10: for every valid diagram, the complement exists and its volume is the
area of the bounding box minus the volume of the diagram. -/
theorem C10_complement_volume (d : YoungDiagram) (hd : ValidYD d) :
    ∃ c, d.complement = some c ∧
      c.volume = d.height * d.width - d.volume ∧
      c.volume + d.volume = d.height * d.width := by
  obtain ⟨c, h1, h2, h3, h4, h5⟩ := complement_spec hd
  have hentries : ∀ a ∈ d.usual_description, a ≤ d.width :=
    validUsual_entries hd.2
  have hsum := sum_map_sub hentries
  refine ⟨c, h1, ?_, ?_⟩
  · show c.usual_description.sum = _
    rw [h5, List.sum_reverse]
    show _ = d.height * d.width - d.usual_description.sum
    rw [← hd.1]
    omega
  · show c.usual_description.sum + d.usual_description.sum = _
    rw [h5, List.sum_reverse, ← hd.1]
    omega

theorem C10_complement_volume_witness :
    ∃ c, (⟨2, 2, [2, 1]⟩ : YoungDiagram).complement = some c ∧
      c.volume = (⟨2, 2, [2, 1]⟩ : YoungDiagram).height * (⟨2, 2, [2, 1]⟩ : YoungDiagram).width
        - (⟨2, 2, [2, 1]⟩ : YoungDiagram).volume ∧
      c.volume + (⟨2, 2, [2, 1]⟩ : YoungDiagram).volume
        = (⟨2, 2, [2, 1]⟩ : YoungDiagram).height * (⟨2, 2, [2, 1]⟩ : YoungDiagram).width :=
  C10_complement_volume ⟨2, 2, [2, 1]⟩ (by decide)

/-! ## Claim C8 -/

/-- Iterated one-step rotation: the chain of diagrams the scan loops walk
through with `current = current >> 1` (exceptions propagate). -/
def iterRot (d : YoungDiagram) : Nat → Option YoungDiagram
  | 0 => some d
  | k + 1 => (iterRot d k).bind (fun e => e.cyclic_action 1)

/-- On a valid diagram of positive height, `is_lower_triangular` returns a
value (the complement exists and has positive height). -/
theorem islower_det {e : YoungDiagram} (he : ValidYD e) (hh : 1 ≤ e.height) :
    ∃ bl, e.is_lower_triangular = some bl := by
  obtain ⟨c, h1, _, h3, _, _⟩ := complement_spec he
  unfold YoungDiagram.is_lower_triangular
  rw [h1]
  show ∃ bl, c.is_upper_triangular = some bl
  unfold YoungDiagram.is_upper_triangular
  rw [if_pos (by omega)]
  exact ⟨_, rfl⟩

theorem iterRot_eq {d : YoungDiagram} (hd : ValidYD d) (hn : 2 ≤ d.height + d.width) :
    ∀ k, iterRot d k
      = some (diagOfStr ((orbitRot (d.height + d.width))^[k] d.binary_description)) := by
  intro k
  induction k with
  | zero =>
    show some d = some (diagOfStr d.binary_description)
    rw [diagOfStr_binary hd]
  | succ j ih =>
    show (iterRot d j).bind (fun e => e.cyclic_action 1) = _
    rw [ih]
    show (diagOfStr ((orbitRot (d.height + d.width))^[j] d.binary_description)).cyclic_action 1 = _
    exact diagIter_step hd hn j

theorem stepsAux_none {d : YoungDiagram} (hd : ValidYD d) (hn : 2 ≤ d.height + d.width) :
    ∀ (f j : Nat), f = d.height + d.width - j →
    (∀ i, j ≤ i → i < d.height + d.width →
      (diagOfStr ((orbitRot (d.height + d.width))^[i] d.binary_description)).is_lower_triangular
        = some false) →
    stepsToNextAux
      (diagOfStr ((orbitRot (d.height + d.width))^[j] d.binary_description)) j f = some none := by
  intro f
  induction f with
  | zero => intro j _ _; rfl
  | succ f ih =>
    intro j hf hall
    have hj : j < d.height + d.width := by omega
    show (match (diagOfStr ((orbitRot (d.height + d.width))^[j] d.binary_description)).is_lower_triangular with
      | none => none
      | some true => some (some j)
      | some false =>
        match (diagOfStr ((orbitRot (d.height + d.width))^[j] d.binary_description)).cyclic_action 1 with
        | none => none
        | some next => stepsToNextAux next (j + 1) f) = some none
    rw [hall j le_rfl hj, diagIter_step hd hn j]
    exact ih (j + 1) (by omega) (fun i h1 h2 => hall i (by omega) h2)

theorem stepsAux_some {d : YoungDiagram} (hd : ValidYD d) (hn : 2 ≤ d.height + d.width) :
    ∀ (f j k : Nat), j ≤ k → k < d.height + d.width → f = d.height + d.width - j →
    (diagOfStr ((orbitRot (d.height + d.width))^[k] d.binary_description)).is_lower_triangular
      = some true →
    (∀ i, j ≤ i → i < k →
      (diagOfStr ((orbitRot (d.height + d.width))^[i] d.binary_description)).is_lower_triangular
        = some false) →
    stepsToNextAux
      (diagOfStr ((orbitRot (d.height + d.width))^[j] d.binary_description)) j f
      = some (some k) := by
  intro f
  induction f with
  | zero => intro j k h1 h2 h3 _ _; omega
  | succ f ih =>
    intro j k h1 h2 h3 hk hless
    show (match (diagOfStr ((orbitRot (d.height + d.width))^[j] d.binary_description)).is_lower_triangular with
      | none => none
      | some true => some (some j)
      | some false =>
        match (diagOfStr ((orbitRot (d.height + d.width))^[j] d.binary_description)).cyclic_action 1 with
        | none => none
        | some next => stepsToNextAux next (j + 1) f) = some (some k)
    rcases Nat.lt_or_ge j k with hjk | hjk
    · rw [hless j le_rfl hjk, diagIter_step hd hn j]
      exact ih (j + 1) k (by omega) h2 (by omega) hk (fun i hi1 hi2 => hless i (by omega) hi2)
    · have hjk2 : j = k := by omega
      subst hjk2
      rw [hk]

/-- C8 is false as stated: for the valid diagram of height 0, width 1,
`steps_to_next_lower_triangular` raises (the lower-triangularity test rebuilds
a height-0 diagram whose `is_upper_triangular` raises) instead of returning a
smallest step count or `None`. -/
theorem C8_counterexample :
    ValidYD ⟨0, 1, []⟩ ∧
      (⟨0, 1, []⟩ : YoungDiagram).steps_to_next_lower_triangular = none := by
  constructor
  · decide
  · rfl

/-- C8 amended: for every valid diagram of positive height,
`steps_to_next_lower_triangular` terminates and returns either the smallest
`k < perimeter` such that rotating `d` by `k` single steps yields a
lower-triangular diagram (all earlier rotations testing `false`), or `None`
when no rotation within `perimeter` steps is lower-triangular.  For the 0-by-0
diagram the loop guard fails immediately and the result is `None`; for a
height-0 diagram of positive width the first lower-triangularity test raises
(`none`): it rebuilds a height-0 complement whose `is_upper_triangular`
raises. -/
theorem C8_amended_scan (d : YoungDiagram) (hd : ValidYD d) :
    (1 ≤ d.height →
      (∀ k, d.steps_to_next_lower_triangular = some (some k) →
        k < d.height + d.width ∧
        (∃ e, iterRot d k = some e ∧ e.is_lower_triangular = some true) ∧
        (∀ j, j < k → ∃ e, iterRot d j = some e ∧ e.is_lower_triangular = some false)) ∧
      (d.steps_to_next_lower_triangular = some none →
        ∀ k, k < d.height + d.width →
          ∃ e, iterRot d k = some e ∧ e.is_lower_triangular = some false) ∧
      (∃ r, d.steps_to_next_lower_triangular = some r)) ∧
    (d.height = 0 → d.width = 0 → d.steps_to_next_lower_triangular = some none) ∧
    (d.height = 0 → 1 ≤ d.width → d.steps_to_next_lower_triangular = none) := by
  refine ⟨fun hh => ?_, fun hh0 hw0 => ?_, fun hh0 hw1 => ?_⟩
  case refine_2 =>
    show stepsToNextAux d 0 (d.height + d.width) = some none
    rw [hh0, hw0]
    rfl
  case refine_3 =>
    obtain ⟨c, hc, _, hch, _, _⟩ := complement_spec hd
    have hlow : d.is_lower_triangular = none := by
      unfold YoungDiagram.is_lower_triangular
      rw [hc]
      show c.is_upper_triangular = none
      unfold YoungDiagram.is_upper_triangular
      rw [if_neg (by rw [hch, hh0]; omega)]
    obtain ⟨f, hf⟩ : ∃ f, d.height + d.width = f + 1 :=
      ⟨d.height + d.width - 1, by omega⟩
    show stepsToNextAux d 0 (d.height + d.width) = none
    rw [hf]
    show (match d.is_lower_triangular with
      | none => none
      | some true => some (some 0)
      | some false =>
        match d.cyclic_action 1 with
        | none => none
        | some next => stepsToNextAux next (0 + 1) f) = none
    rw [hlow]
  rcases Nat.lt_or_ge (d.height + d.width) 2 with hn | hn
  · -- perimeter 1: the unique valid diagram is (1, 0, (0,)), already lower
    have hw : d.width = 0 := by omega
    have hh1 : d.height = 1 := by omega
    have hus : d.usual_description = [0] := by
      have hlen : d.usual_description.length = 1 := by rw [hd.1, hh1]
      cases hu : d.usual_description with
      | nil => rw [hu] at hlen; simp at hlen
      | cons a us =>
        rw [hu] at hlen
        simp at hlen
        have hv2 := hd.2
        rw [hu, hw] at hv2
        simp only [validUsual, Bool.and_eq_true, decide_eq_true_eq] at hv2
        have ha : a = 0 := by omega
        rw [ha, hlen]
    have hde : d = ⟨1, 0, [0]⟩ := by
      cases d
      simp_all
    subst hde
    have hval : YoungDiagram.steps_to_next_lower_triangular ⟨1, 0, [0]⟩ = some (some 0) := by
      rfl
    refine ⟨?_, ?_, ⟨some 0, hval⟩⟩
    · intro k hk
      rw [hval] at hk
      have hk0 : k = 0 := by
        have := Option.some.inj (Option.some.inj hk)
        omega
      subst hk0
      refine ⟨by decide, ⟨⟨1, 0, [0]⟩, rfl, by decide⟩, ?_⟩
      intro j hj
      omega
    · intro hk
      rw [hval] at hk
      cases hk
  · -- perimeter at least 2
    have hD0 : diagOfStr ((orbitRot (d.height + d.width))^[0] d.binary_description) = d := by
      show diagOfStr d.binary_description = d
      exact diagOfStr_binary hd
    have hlow : ∀ i, ∃ bl,
        (diagOfStr ((orbitRot (d.height + d.width))^[i] d.binary_description)).is_lower_triangular
          = some bl := by
      intro i
      obtain ⟨hv, _, hhh, _⟩ := diagIter_spec hd i
      exact islower_det hv (by omega)
    have hsteps : d.steps_to_next_lower_triangular
        = stepsToNextAux
            (diagOfStr ((orbitRot (d.height + d.width))^[0] d.binary_description)) 0
            (d.height + d.width) := by
      unfold YoungDiagram.steps_to_next_lower_triangular
      rw [hD0]
    by_cases hex : ∃ i, i < d.height + d.width ∧
        (diagOfStr ((orbitRot (d.height + d.width))^[i] d.binary_description)).is_lower_triangular
          = some true
    · classical
      set k := Nat.find hex with hkdef
      obtain ⟨hkn, hktrue⟩ := Nat.find_spec hex
      have hkmin : ∀ i, i < k →
          (diagOfStr ((orbitRot (d.height + d.width))^[i] d.binary_description)).is_lower_triangular
            = some false := by
        intro i hi
        obtain ⟨bl, hbl⟩ := hlow i
        cases bl with
        | true => exact absurd ⟨by omega, hbl⟩ (Nat.find_min hex hi)
        | false => exact hbl
      have hval : d.steps_to_next_lower_triangular = some (some k) := by
        rw [hsteps]
        exact stepsAux_some hd hn (d.height + d.width) 0 k (by omega) hkn (by omega) hktrue
          (fun i _ hi => hkmin i hi)
      refine ⟨?_, ?_, ⟨some k, hval⟩⟩
      · intro k2 hk2
        rw [hval] at hk2
        have hke : k = k2 := Option.some.inj (Option.some.inj hk2)
        subst hke
        refine ⟨hkn, ?_, ?_⟩
        · exact ⟨_, iterRot_eq hd hn k, hktrue⟩
        · intro j hj
          exact ⟨_, iterRot_eq hd hn j, hkmin j hj⟩
      · intro hk2
        rw [hval] at hk2
        cases hk2
    · push_neg at hex
      have hfalse : ∀ i, i < d.height + d.width →
          (diagOfStr ((orbitRot (d.height + d.width))^[i] d.binary_description)).is_lower_triangular
            = some false := by
        intro i hi
        obtain ⟨bl, hbl⟩ := hlow i
        cases bl with
        | true => exact absurd hbl (hex i hi)
        | false => exact hbl
      have hval : d.steps_to_next_lower_triangular = some none := by
        rw [hsteps]
        exact stepsAux_none hd hn (d.height + d.width) 0 (by omega)
          (fun i _ hi => hfalse i hi)
      refine ⟨?_, ?_, ⟨none, hval⟩⟩
      · intro k hk
        rw [hval] at hk
        cases hk
      · intro _ k hkn
        exact ⟨_, iterRot_eq hd hn k, hfalse k hkn⟩

theorem C8_amended_scan_witness :
    ((∀ k, (⟨2, 2, [2, 1]⟩ : YoungDiagram).steps_to_next_lower_triangular = some (some k) →
      k < (⟨2, 2, [2, 1]⟩ : YoungDiagram).height + (⟨2, 2, [2, 1]⟩ : YoungDiagram).width ∧
      (∃ e, iterRot ⟨2, 2, [2, 1]⟩ k = some e ∧ e.is_lower_triangular = some true) ∧
      (∀ j, j < k →
        ∃ e, iterRot ⟨2, 2, [2, 1]⟩ j = some e ∧ e.is_lower_triangular = some false)) ∧
    ((⟨2, 2, [2, 1]⟩ : YoungDiagram).steps_to_next_lower_triangular = some none →
      ∀ k, k < (⟨2, 2, [2, 1]⟩ : YoungDiagram).height + (⟨2, 2, [2, 1]⟩ : YoungDiagram).width →
        ∃ e, iterRot ⟨2, 2, [2, 1]⟩ k = some e ∧ e.is_lower_triangular = some false) ∧
    (∃ r, (⟨2, 2, [2, 1]⟩ : YoungDiagram).steps_to_next_lower_triangular = some r)) ∧
    (⟨0, 0, []⟩ : YoungDiagram).steps_to_next_lower_triangular = some none ∧
    (⟨0, 1, []⟩ : YoungDiagram).steps_to_next_lower_triangular = none :=
  ⟨(C8_amended_scan ⟨2, 2, [2, 1]⟩ (by decide)).1 (by decide),
    (C8_amended_scan ⟨0, 0, []⟩ (by decide)).2.1 rfl rfl,
    (C8_amended_scan ⟨0, 1, []⟩ (by decide)).2.2 rfl (by decide)⟩

/-! ## The family enumerator (`src/young/diagrams.py`) -/

/-- Modelled from the spec: `IntegerListsLex(max_part, length, ceiling,
max_slope=0)` is external Sage code (not in `src/`); per spec section 4.2 it
generates all weakly decreasing integer sequences of the given length with
each entry at most `max_part` and at most its per-position ceiling, and after
the code's `usual_descriptions.reverse()` the sequences are consumed in
decreasing lexicographic order.  `decSeqs cap cs` produces exactly those
sequences in that (decreasing lexicographic) order: the running `cap` is the
previous entry (initially `max_part`), `cs` the remaining ceilings. -/
def decSeqs (cap : Nat) : List Nat → List (List Nat)
  | [] => [[]]
  | c :: cs =>
    ((List.range (min cap c + 1)).reverse).flatMap
      (fun v => (decSeqs v cs).map (fun u => v :: u))

/-- Runs the generator expression of `get_upper_triangulars`
(diagrams.py:92-95) to its end: each constructor call either yields a diagram
or raises, ending the generator after the yields so far. -/
def yieldAll : List (Option YoungDiagram) → GenRes YoungDiagram
  | [] => GenRes.finished []
  | none :: _ => GenRes.raised []
  | some d :: rest =>
    match yieldAll rest with
    | GenRes.finished l => GenRes.finished (d :: l)
    | GenRes.raised l => GenRes.raised (d :: l)
    | GenRes.fuelOut l => GenRes.fuelOut (d :: l)

/-- `YoungDiagrams.get_upper_triangulars` (diagrams.py:76-97): for positive
height, enumerate the ceiling-bounded weakly decreasing sequences and build
`YoungDiagram(self._width, self._height, usual_description)` — note the
swapped constructor arguments in the source.  `height = 0` raises
`NotImplementedError`. -/
def get_upper_triangulars (height width : Nat) : GenRes YoungDiagram :=
  if 0 < height then
    yieldAll
      ((decSeqs width
          ((List.range height).map (fun r => width * (height - r - 1) / height))).map
        (fun u => YoungDiagram.mk? width height u))
  else GenRes.raised []

/-- The inner `for fellow in YD.cyclic_orbit()` loop of
`get_minimal_upper_triangulars` (diagrams.py:66-72): collect the
upper-triangular fellows and track the running lexicographic minimum;
an exception from the triangularity test or the comparison aborts. -/
def innerScan : List YoungDiagram → List YoungDiagram → YoungDiagram →
    Option (List YoungDiagram × YoungDiagram)
  | [], acc, m => some (acc, m)
  | fellow :: fs, acc, m =>
    match fellow.is_upper_triangular with
    | none => none
    | some false => innerScan fs acc m
    | some true =>
      match fellow.lt? m with
      | none => none
      | some true => innerScan fs (acc ++ [fellow]) fellow
      | some false => innerScan fs (acc ++ [fellow]) m

/-- The outer loop of `get_minimal_upper_triangulars` (diagrams.py:57-74):
skip a diagram that appears in a recorded orbit, otherwise scan its cyclic
orbit, record the upper-triangular fellows and yield the minimum.
`endRaised` records whether the source enumerator raised after its yields. -/
def outerScan (fuel : Nat) : List YoungDiagram → List (List YoungDiagram) → Bool →
    GenRes YoungDiagram
  | [], _, endRaised => if endRaised then GenRes.raised [] else GenRes.finished []
  | YD :: rest, orbits, endRaised =>
    if orbits.any (fun o => o.contains YD) then outerScan fuel rest orbits endRaised
    else
      match YD.cyclic_orbit fuel with
      | GenRes.raised _ => GenRes.raised []
      | GenRes.fuelOut _ => GenRes.fuelOut []
      | GenRes.finished fellows =>
        match innerScan fellows [] YD with
        | none => GenRes.raised []
        | some (orb, m) =>
          match outerScan fuel rest (orbits ++ [orb]) endRaised with
          | GenRes.finished l => GenRes.finished (m :: l)
          | GenRes.raised l => GenRes.raised (m :: l)
          | GenRes.fuelOut l => GenRes.fuelOut (m :: l)

/-- `YoungDiagrams.get_minimal_upper_triangulars` (diagrams.py:57-74); the
orbit generators run with fuel `height + width + 1`, which the termination
lemmas show is never exhausted. -/
def get_minimal_upper_triangulars (height width : Nat) : GenRes YoungDiagram :=
  match get_upper_triangulars height width with
  | GenRes.finished l => outerScan (height + width + 1) l [] false
  | GenRes.raised l => outerScan (height + width + 1) l [] true
  | GenRes.fuelOut _ => GenRes.fuelOut []

/-! ### Membership and head of the sequence enumeration -/

/-- The chain constraint of the enumerated sequences: each entry is at most
the previous entry (initially `cap`) and at most its ceiling. -/
def chainCap : Nat → List Nat → List Nat → Prop
  | _, [], [] => True
  | cap, c :: cs, v :: vs => v ≤ min cap c ∧ chainCap v cs vs
  | _, _, _ => False

theorem mem_decSeqs : ∀ (cs : List Nat) (cap : Nat) (u : List Nat),
    u ∈ decSeqs cap cs ↔ chainCap cap cs u := by
  intro cs
  induction cs with
  | nil =>
    intro cap u
    show u ∈ [[]] ↔ chainCap cap [] u
    cases u with
    | nil => simp [chainCap]
    | cons v vs => simp [chainCap]
  | cons c cs ih =>
    intro cap u
    show u ∈ ((List.range (min cap c + 1)).reverse).flatMap
      (fun v => (decSeqs v cs).map (fun u => v :: u)) ↔ _
    rw [List.mem_flatMap]
    cases u with
    | nil =>
      simp only [List.mem_map]
      constructor
      · rintro ⟨v, _, u', _, h⟩
        cases h
      · intro h
        exact absurd h (by simp [chainCap])
    | cons v vs =>
      show (∃ a ∈ (List.range (min cap c + 1)).reverse,
        v :: vs ∈ (decSeqs a cs).map (fun u => a :: u)) ↔ v ≤ min cap c ∧ chainCap v cs vs
      constructor
      · rintro ⟨a, ha, hm⟩
        rw [List.mem_map] at hm
        obtain ⟨u', hu', he⟩ := hm
        obtain ⟨hav, huv⟩ := List.cons.inj he
        rw [List.mem_reverse, List.mem_range] at ha
        constructor
        · omega
        · have hc := (ih a u').1 hu'
          rw [hav, huv] at hc
          exact hc
      · rintro ⟨h1, h2⟩
        refine ⟨v, by rw [List.mem_reverse, List.mem_range]; omega, ?_⟩
        rw [List.mem_map]
        exact ⟨vs, (ih v vs).2 h2, rfl⟩

/-- The pointwise maximal sequence: the head of the enumeration. -/
def maxChain : Nat → List Nat → List Nat
  | _, [] => []
  | cap, c :: cs => min cap c :: maxChain (min cap c) cs

theorem decSeqs_head : ∀ (cs : List Nat) (cap : Nat),
    ∃ t, decSeqs cap cs = maxChain cap cs :: t := by
  intro cs
  induction cs with
  | nil => intro cap; exact ⟨[], rfl⟩
  | cons c cs ih =>
    intro cap
    obtain ⟨t, ht⟩ := ih (min cap c)
    have hrev : (List.range (min cap c + 1)).reverse
        = min cap c :: (List.range (min cap c)).reverse := by
      rw [List.range_succ, List.reverse_append]
      rfl
    refine ⟨(decSeqs (min cap c) cs).tail.map (fun u => min cap c :: u) ++
      ((List.range (min cap c)).reverse).flatMap
        (fun v => (decSeqs v cs).map (fun u => v :: u)), ?_⟩
    show ((List.range (min cap c + 1)).reverse).flatMap
      (fun v => (decSeqs v cs).map (fun u => v :: u)) = _
    rw [hrev, List.flatMap_cons, ht]
    simp [maxChain, ht]

/-! ### Soundness of the enumeration: every yielded diagram is upper-triangular -/

theorem ut_arith_int (h w u r : Int) (hh : 1 ≤ h) (hw : h ≤ w)
    (hB : w * (h - 1) ≤ h * h + h - 1) (hu0 : 0 ≤ u) (hu : u ≤ h) (hr0 : 0 ≤ r)
    (hr : r < h) (hA : u * h ≤ w * (h - r - 1)) : u * w ≤ h * (w - r) := by
  rcases eq_or_lt_of_le hr0 with hr1 | hr1
  · -- r = 0
    have : r = 0 := hr1.symm
    subst this
    have hw0 : (0 : Int) ≤ w := by linarith
    nlinarith [mul_le_mul_of_nonneg_right hu hw0]
  · rcases eq_or_lt_of_le (show r ≤ h - 1 by linarith) with hre | hre
    · -- r = h - 1
      have hceil : h - r - 1 = 0 := by omega
      rw [hceil, mul_zero] at hA
      have hu00 : u = 0 := by nlinarith
      subst hu00
      have : (0 : Int) ≤ w - r := by linarith
      nlinarith
    · -- 1 ≤ r ≤ h - 2, so h ≥ 3
      have hh3 : 3 ≤ h := by linarith
      have hδ : (w - h) * (h - 1) ≤ 2 * h - 1 := by nlinarith
      have hd2 : w - h ≤ 2 := by
        by_contra hcon
        push_neg at hcon
        have h3 : (3 : Int) ≤ w - h := by linarith
        have := mul_le_mul_of_nonneg_right h3 (show (0 : Int) ≤ h - 1 by linarith)
        linarith
      have hcase : w = h ∨ w = h + 1 ∨ w = h + 2 := by omega
      rcases hcase with hwe | hwe | hwe
      · -- w = h
        subst hwe
        have hu2 : u ≤ w - r - 1 := by
          have hwpos : (0 : Int) < w := by linarith
          nlinarith
        nlinarith
      · -- w = h + 1
        subst hwe
        have k1 : u * h * (h + 1) ≤ (h + 1) * (h - r - 1) * (h + 1) := by
          nlinarith [mul_le_mul_of_nonneg_right hA (show (0 : Int) ≤ h + 1 by linarith)]
        have k2 : (h + 1) * (h - r - 1) * (h + 1) ≤ h * h * (h + 1 - r) := by
          nlinarith [mul_le_mul_of_nonneg_left (show r - 1 ≥ (0 : Int) by linarith)
            (show (0 : Int) ≤ 2 * h + 1 by linarith)]
        have k3 : h * (u * (h + 1)) ≤ h * (h * (h + 1 - r)) := by nlinarith
        have := le_of_mul_le_mul_left k3 (show (0 : Int) < h by linarith)
        nlinarith
      · -- w = h + 2
        subst hwe
        have hu2 : u ≤ h - r := by
          by_contra hcon
          push_neg at hcon
          have h1 : (h - r + 1) * h ≤ u * h :=
            mul_le_mul_of_nonneg_right (by linarith) (by linarith)
          nlinarith
        nlinarith [mul_le_mul_of_nonneg_right hu2 (show (0 : Int) ≤ h + 2 by linarith)]

theorem ut_arith_nat (h w u r : Nat) (hh : 1 ≤ h) (hw : h ≤ w)
    (hB : w * (h - 1) ≤ h * h + h - 1) (hu : u ≤ h) (hr : r < h)
    (hA : u * h ≤ w * (h - r - 1)) :
    (u : Int) * (w : Int) ≤ (h : Int) * ((w : Int) - (r : Int)) := by
  have hB2 : (w : Int) * ((h : Int) - 1) ≤ (h : Int) * h + h - 1 := by
    have h1 : 1 ≤ h * h + h := by nlinarith
    zify [hh, h1] at hB
    linarith
  have hA2 : (u : Int) * h ≤ (w : Int) * ((h : Int) - r - 1) := by
    have h1 : r ≤ h := by omega
    have h2 : 1 ≤ h - r := by omega
    zify [h1, h2] at hA
    linarith
  exact ut_arith_int h w u r (by exact_mod_cast hh) (by exact_mod_cast hw) hB2
    (by positivity) (by exact_mod_cast hu) (by positivity) (by exact_mod_cast hr) hA2

theorem utCheck_iff (H W : Nat) : ∀ (L : List Nat) (r0 : Nat),
    utCheck H W r0 L = true ↔
      ∀ i, i < L.length →
        (L.getD i 0 : Int) * H ≤ (W : Int) * ((H : Int) - ((r0 + i : Nat) : Int)) := by
  intro L
  induction L with
  | nil =>
    intro r0
    simp [utCheck]
  | cons u us ih =>
    intro r0
    show (decide ((u : Int) * H ≤ (W : Int) * ((H : Int) - (r0 : Int))) &&
      utCheck H W (r0 + 1) us) = true ↔ _
    rw [Bool.and_eq_true, decide_eq_true_eq, ih (r0 + 1)]
    constructor
    · rintro ⟨h1, h2⟩ i hi
      cases i with
      | zero => simpa using h1
      | succ j =>
        have hj := h2 j (by simpa using hi)
        simp only [List.getD_cons_succ]
        have he : ((r0 + 1 + j : Nat) : Int) = ((r0 + (j + 1) : Nat) : Int) := by
          push_cast
          ring
        rw [he] at hj
        exact hj
    · intro hall
      constructor
      · simpa using hall 0 (by simp)
      · intro j hj
        have := hall (j + 1) (by simpa using hj)
        simp only [List.getD_cons_succ] at this
        have he : ((r0 + 1 + j : Nat) : Int) = ((r0 + (j + 1) : Nat) : Int) := by
          push_cast
          ring
        rw [he]
        exact this

theorem getD_replicate_zero : ∀ (k j : Nat), (List.replicate k (0 : Nat)).getD j 0 = 0 := by
  intro k
  induction k with
  | zero => intro j; cases j <;> rfl
  | succ k ih =>
    intro j
    cases j with
    | zero => rfl
    | succ i => simpa [List.replicate_succ] using ih i

theorem chainCap_le_cap : ∀ (cs : List Nat) (cap : Nat) (u : List Nat),
    chainCap cap cs u → ∀ a ∈ u, a ≤ cap := by
  intro cs
  induction cs with
  | nil =>
    intro cap u hc a ha
    cases u with
    | nil => cases ha
    | cons v vs => exact absurd hc (by simp [chainCap])
  | cons c cs ih =>
    intro cap u hc a ha
    cases u with
    | nil => cases ha
    | cons v vs =>
      obtain ⟨h1, h2⟩ := hc
      rcases List.mem_cons.1 ha with rfl | ha
      · omega
      · have := ih v vs h2 a ha
        omega

theorem chainCap_length : ∀ (cs : List Nat) (cap : Nat) (u : List Nat),
    chainCap cap cs u → u.length = cs.length := by
  intro cs
  induction cs with
  | nil =>
    intro cap u hc
    cases u with
    | nil => rfl
    | cons v vs => exact absurd hc (by simp [chainCap])
  | cons c cs ih =>
    intro cap u hc
    cases u with
    | nil => exact absurd hc (by simp [chainCap])
    | cons v vs =>
      simpa using ih v vs hc.2

theorem chainCap_getD_ceiling : ∀ (cs : List Nat) (cap : Nat) (u : List Nat),
    chainCap cap cs u → ∀ i, i < u.length → u.getD i 0 ≤ cs.getD i 0 := by
  intro cs
  induction cs with
  | nil =>
    intro cap u hc i hi
    cases u with
    | nil => simp at hi
    | cons v vs => exact absurd hc (by simp [chainCap])
  | cons c cs ih =>
    intro cap u hc i hi
    cases u with
    | nil => simp at hi
    | cons v vs =>
      cases i with
      | zero =>
        simp only [List.getD_cons_zero]
        have := hc.1
        omega
      | succ j =>
        simp only [List.getD_cons_succ]
        exact ih v vs hc.2 j (by simpa using hi)

theorem chainCap_validUsual : ∀ (cs : List Nat) (cap p : Nat) (u : List Nat),
    chainCap cap cs u → cap ≤ p → validUsual p u = true := by
  intro cs
  induction cs with
  | nil =>
    intro cap p u hc _
    cases u with
    | nil => rfl
    | cons v vs => exact absurd hc (by simp [chainCap])
  | cons c cs ih =>
    intro cap p u hc hp
    cases u with
    | nil => exact absurd hc (by simp [chainCap])
    | cons v vs =>
      obtain ⟨h1, h2⟩ := hc
      simp only [validUsual, Bool.and_eq_true, decide_eq_true_eq]
      exact ⟨by omega, ih v v vs h2 le_rfl⟩

theorem maxChain_length : ∀ (cs : List Nat) (cap : Nat),
    (maxChain cap cs).length = cs.length := by
  intro cs
  induction cs with
  | nil => intro cap; rfl
  | cons c cs ih =>
    intro cap
    show (min cap c :: maxChain (min cap c) cs).length = cs.length + 1
    simp [ih (min cap c)]

theorem yieldAll_mem : ∀ (L : List (Option YoungDiagram)) (d : YoungDiagram),
    d ∈ yieldsOf (yieldAll L) → some d ∈ L := by
  intro L
  induction L with
  | nil => intro d hd; cases hd
  | cons x rest ih =>
    intro d hd
    cases x with
    | none => cases hd
    | some e =>
      have hyl : yieldsOf (yieldAll (some e :: rest)) = e :: yieldsOf (yieldAll rest) := by
        show yieldsOf (match yieldAll rest with
          | GenRes.finished l => GenRes.finished (e :: l)
          | GenRes.raised l => GenRes.raised (e :: l)
          | GenRes.fuelOut l => GenRes.fuelOut (e :: l)) = _
        cases yieldAll rest <;> rfl
      rw [hyl] at hd
      rcases List.mem_cons.1 hd with rfl | hd
      · exact List.mem_cons_self _ _
      · exact List.mem_cons_of_mem _ (ih d hd)

theorem yieldAll_head : ∀ (x : Option YoungDiagram) (L : List (Option YoungDiagram))
    (d : YoungDiagram), d ∈ yieldsOf (yieldAll (x :: L)) → ∃ e, x = some e := by
  intro x L d hd
  cases x with
  | none => cases hd
  | some e => exact ⟨e, rfl⟩

theorem mk?_some_iff (h w : Nat) (u : List Nat) :
    (∃ e, YoungDiagram.mk? h w u = some e) ↔ u.length ≤ h ∧ validUsual w u = true := by
  unfold YoungDiagram.mk?
  by_cases hc : u.length ≤ h ∧ validUsual w u = true
  · rw [if_pos (by simp [hc.1, hc.2])]
    exact ⟨fun _ => hc, fun _ => ⟨_, rfl⟩⟩
  · rw [if_neg (by simpa using hc)]
    constructor
    · rintro ⟨e, he⟩
      cases he
    · intro hcc
      exact absurd hcc hc

theorem mk?_usual {h w : Nat} {us : List Nat} {d : YoungDiagram}
    (hd : YoungDiagram.mk? h w us = some d) :
    d.usual_description = us ++ List.replicate (h - us.length) 0 := by
  unfold YoungDiagram.mk? at hd
  by_cases hc : us.length ≤ h ∧ validUsual w us = true
  · rw [if_pos (by simp [hc.1, hc.2])] at hd
    cases hd
    rfl
  · rw [if_neg (by simpa using hc)] at hd
    cases hd

/-- Every diagram yielded by `get_upper_triangulars` is a valid diagram with
the family's dimensions swapped (height = family width, width = family
height) and satisfies `is_upper_triangular`; moreover yields only happen in
families with `1 ≤ height ≤ width`. -/
theorem enum_sound {h w : Nat} {d : YoungDiagram}
    (hd : d ∈ yieldsOf (get_upper_triangulars h w)) :
    ValidYD d ∧ d.height = w ∧ d.width = h ∧ d.is_upper_triangular = some true ∧
      1 ≤ h ∧ h ≤ w := by
  by_cases h0 : 0 < h
  · rw [show get_upper_triangulars h w = yieldAll
      ((decSeqs w ((List.range h).map (fun r => w * (h - r - 1) / h))).map
        (fun u => YoungDiagram.mk? w h u)) from by
        unfold get_upper_triangulars
        rw [if_pos h0]] at hd
    obtain ⟨t, ht⟩ := decSeqs_head ((List.range h).map (fun r => w * (h - r - 1) / h)) w
    -- the head of the enumeration constructs, giving the family bounds
    obtain ⟨d0, hd0⟩ : ∃ e, YoungDiagram.mk? w h
        (maxChain w ((List.range h).map (fun r => w * (h - r - 1) / h))) = some e := by
      have := yieldAll_head _ _ d (by rw [← List.map_cons, ← ht]; exact hd)
      simpa using this
    have hhead : (maxChain w ((List.range h).map (fun r => w * (h - r - 1) / h))).length ≤ w
        ∧ validUsual h (maxChain w ((List.range h).map (fun r => w * (h - r - 1) / h)))
          = true := by
      have := (mk?_some_iff w h _).1 ⟨d0, hd0⟩
      exact this
    have hlenM : (maxChain w ((List.range h).map (fun r => w * (h - r - 1) / h))).length
        = h := by
      rw [maxChain_length]
      simp
    have hhw : h ≤ w := by omega
    -- the first ceiling entry caps the whole family
    have hceils : (List.range h).map (fun r => w * (h - r - 1) / h)
        = (w * (h - 1) / h) :: (List.range (h - 1)).map
            (fun r => w * (h - (r + 1) - 1) / h) := by
      cases hcase : h with
      | zero => omega
      | succ k =>
        rw [List.range_succ_eq_map, List.map_cons, List.map_map]
        simp
    have hminh : min w (w * (h - 1) / h) ≤ h := by
      have hv := hhead.2
      rw [hceils] at hv
      show min w (w * (h - 1) / h) ≤ h
      have : validUsual h (min w (w * (h - 1) / h) :: maxChain (min w (w * (h - 1) / h))
          ((List.range (h - 1)).map (fun r => w * (h - (r + 1) - 1) / h))) = true := by
        rw [hceils] at hhead
        exact hhead.2
      simp only [validUsual, Bool.and_eq_true, decide_eq_true_eq] at this
      exact this.1
    have hB : w * (h - 1) ≤ h * h + h - 1 := by
      rcases Nat.le_total (w * (h - 1) / h) w with hm | hm
      · rw [min_eq_right hm] at hminh
        have := (Nat.div_le_iff_le_mul_add_pred h0).1 hminh
        omega
      · rw [min_eq_left hm] at hminh
        have hwh : w = h := by omega
        subst hwh
        have e : w * (w - 1) + w * 1 = w * w := by
          rw [← Nat.mul_add]
          congr 1
          omega
        omega
    -- now pick the sequence that produced d
    obtain ⟨mu, hmem⟩ : ∃ u, u ∈ decSeqs w ((List.range h).map
        (fun r => w * (h - r - 1) / h)) ∧ YoungDiagram.mk? w h u = some d := by
      have := yieldAll_mem _ d hd
      rw [List.mem_map] at this
      obtain ⟨u, hu1, hu2⟩ := this
      exact ⟨u, hu1, hu2⟩
    obtain ⟨hmem1, hmem2⟩ := hmem
    have hvalid := mk?_valid hmem2
    have hdims := mk?_dims hmem2
    refine ⟨hvalid, hdims.1, hdims.2, ?_, by omega, hhw⟩
    have hchain := (mem_decSeqs _ w mu).1 hmem1
    have hlenmu : mu.length = h := by
      rw [chainCap_length _ w mu hchain]
      simp
    have hmuh : ∀ a ∈ mu, a ≤ h := by
      rw [hceils] at hchain
      cases hcm : mu with
      | nil => intro a ha; cases ha
      | cons v vs =>
        rw [hcm] at hchain
        obtain ⟨hv1, hv2⟩ := hchain
        intro a ha
        rcases List.mem_cons.1 ha with rfl | ha
        · omega
        · have := chainCap_le_cap _ v vs hv2 a ha
          omega
    have hmucap := chainCap_getD_ceiling _ w mu hchain
    -- upper-triangularity of d
    unfold YoungDiagram.is_upper_triangular
    rw [if_pos (by rw [hdims.1]; omega)]
    congr 1
    rw [utCheck_iff]
    intro i hi
    rw [mk?_usual hmem2] at hi ⊢
    rw [hdims.1, hdims.2]
    simp only [Nat.zero_add]
    rcases Nat.lt_or_ge i mu.length with him | him
    · rw [List.getD_append _ _ _ _ him]
      have hA : mu.getD i 0 * h ≤ w * (h - i - 1) := by
        have h1 := hmucap i him
        have h2 : ((List.range h).map (fun r => w * (h - r - 1) / h)).getD i 0
            = w * (h - i - 1) / h := by
          have : i < h := by omega
          exact getD_range_map (fun r => w * (h - r - 1) / h) h i this
        rw [h2] at h1
        exact (Nat.le_div_iff_mul_le h0).1 h1
      have hud : mu.getD i 0 ≤ h := by
        apply hmuh
        rw [List.getD_eq_getElem _ _ him]
        exact List.getElem_mem him
      exact ut_arith_nat h w (mu.getD i 0) i (by omega) hhw hB hud (by omega) hA
    · rw [List.getD_append_right _ _ _ _ him, getD_replicate_zero]
      have hiw : i < w := by
        have hlen2 : (mu ++ List.replicate (w - mu.length) 0).length = w := by
          simp
          omega
        omega
      have : (0 : Int) ≤ (h : Int) * ((w : Int) - (i : Int)) := by
        apply mul_nonneg
        · positivity
        · have : (i : Int) < (w : Int) := by exact_mod_cast hiw
          linarith
      simpa using this
  · have : get_upper_triangulars h w = GenRes.raised [] := by
      unfold get_upper_triangulars
      rw [if_neg h0]
    rw [this] at hd
    cases hd

/-! ## Claim C3 -/

/-- C3 is false as stated: in the 1-by-1 family, the full diagram
(height 1, width 1, row lengths (1,)) satisfies `is_upper_triangular`, yet
`get_upper_triangulars` never yields it — the enumeration bounds rows by the
stricter ceiling `⌊width*(height-r-1)/height⌋` (here 0), so the enumeration
is not complete for the predicate. -/
theorem C3_counterexample :
    ValidYD ⟨1, 1, [1]⟩ ∧
      (⟨1, 1, [1]⟩ : YoungDiagram).height = 1 ∧
      (⟨1, 1, [1]⟩ : YoungDiagram).width = 1 ∧
      (⟨1, 1, [1]⟩ : YoungDiagram).is_upper_triangular = some true ∧
      ¬ (⟨1, 1, [1]⟩ : YoungDiagram) ∈ yieldsOf (get_upper_triangulars 1 1) := by
  decide

/-- C3 amended: every diagram that `get_upper_triangulars` yields satisfies
`is_upper_triangular`, but its height is the family's width and its width the
family's height (the source swaps the constructor arguments; on square boxes
these coincide), and the enumeration is a strict subset of the
upper-triangular diagrams of the box (see the counterexample). -/
theorem C3_amended_enum_sound (h w : Nat) (d : YoungDiagram)
    (hd : d ∈ yieldsOf (get_upper_triangulars h w)) :
    d.height = w ∧ d.width = h ∧ d.is_upper_triangular = some true :=
  ⟨(enum_sound hd).2.1, (enum_sound hd).2.2.1, (enum_sound hd).2.2.2.1⟩

theorem C3_amended_enum_sound_witness :
    (⟨1, 1, [0]⟩ : YoungDiagram).height = 1 ∧
      (⟨1, 1, [0]⟩ : YoungDiagram).width = 1 ∧
      (⟨1, 1, [0]⟩ : YoungDiagram).is_upper_triangular = some true :=
  C3_amended_enum_sound 1 1 ⟨1, 1, [0]⟩ (by decide)

/-! ### The lexicographic order of `__lt__` -/

theorem lexLtAux_irrefl : ∀ (l : List Nat), lexLtAux l l = false := by
  intro l
  induction l with
  | nil => rfl
  | cons a as_ ih =>
    show (if a < a then true else if a = a then lexLtAux as_ as_ else false) = false
    rw [if_neg (by omega), if_pos rfl, ih]

theorem lexLtAux_trans : ∀ (a b c : List Nat), lexLtAux a b = true →
    lexLtAux b c = true → lexLtAux a c = true := by
  intro a
  induction a with
  | nil =>
    intro b c h1 _
    exfalso
    cases b <;> simp [lexLtAux] at h1
  | cons x xs ih =>
    intro b c h1 h2
    cases b with
    | nil => simp [lexLtAux] at h1
    | cons y ys =>
      cases c with
      | nil => simp [lexLtAux] at h2
      | cons z zs =>
        show (if x < z then true else if x = z then lexLtAux xs zs else false) = true
        have h1x : (if x < y then true else if x = y then lexLtAux xs ys else false)
          = true := h1
        have h2x : (if y < z then true else if y = z then lexLtAux ys zs else false)
          = true := h2
        by_cases hyz1 : y < z
        · by_cases hxy1 : x < y
          · rw [if_pos (by omega)]
          · rw [if_neg hxy1] at h1x
            by_cases hxy2 : x = y
            · rw [if_pos (by omega)]
            · rw [if_neg hxy2] at h1x
              simp at h1x
        · by_cases hyz2 : y = z
          · rw [if_neg hyz1, if_pos hyz2] at h2x
            by_cases hxy1 : x < y
            · rw [if_pos (by omega)]
            · rw [if_neg hxy1] at h1x
              by_cases hxy2 : x = y
              · rw [if_pos hxy2] at h1x
                rw [if_neg (by omega), if_pos (by omega)]
                exact ih ys zs h1x h2x
              · rw [if_neg hxy2] at h1x
                simp at h1x
          · rw [if_neg hyz1, if_neg hyz2] at h2x
            simp at h2x

theorem lexLtAux_eq_of_not : ∀ (a b : List Nat), a.length = b.length →
    lexLtAux a b = false → lexLtAux b a = false → a = b := by
  intro a
  induction a with
  | nil =>
    intro b hl _ _
    cases b with
    | nil => rfl
    | cons y ys => simp at hl
  | cons x xs ih =>
    intro b hl h1 h2
    cases b with
    | nil => simp at hl
    | cons y ys =>
      have h1x : (if x < y then true else if x = y then lexLtAux xs ys else false)
        = false := h1
      have h2x : (if y < x then true else if y = x then lexLtAux ys xs else false)
        = false := h2
      by_cases hxy : x < y
      · rw [if_pos hxy] at h1x
        simp at h1x
      · by_cases hyx : y < x
        · rw [if_pos hyx] at h2x
          simp at h2x
        · have hxe : x = y := by omega
          rw [if_neg hxy, if_pos hxe] at h1x
          rw [if_neg hyx, if_pos (by omega)] at h2x
          have := ih ys (by simpa using hl) h1x h2x
          rw [hxe, this]

/-! ### Orbit equivalence -/

/-- `e` lies in the rotation orbit of `d`: some number of one-step rotations
of `d`'s binary description decodes to `e`. -/
def SameOrb (d e : YoungDiagram) : Prop :=
  ∃ k, Construct_From_Binary_Description
    ((orbitRot (d.height + d.width))^[k] d.binary_description) = some e

theorem sameOrb_refl {d : YoungDiagram} (hd : ValidYD d) : SameOrb d d := by
  refine ⟨0, ?_⟩
  show Construct_From_Binary_Description d.binary_description = some d
  exact decode_encode hd

theorem sameOrb_elim {d e : YoungDiagram} (hd : ValidYD d) (h : SameOrb d e) :
    ∃ k, e = diagOfStr ((orbitRot (d.height + d.width))^[k] d.binary_description) ∧
      ValidYD e ∧ e.height = d.height ∧ e.width = d.width ∧
      e.binary_description
        = (orbitRot (d.height + d.width))^[k] d.binary_description := by
  obtain ⟨k, hk⟩ := h
  have hspec := diagOfStr_spec (iter_balanced hd k)
  have he : e = diagOfStr ((orbitRot (d.height + d.width))^[k] d.binary_description) := by
    rw [hk] at hspec
    exact (Option.some.inj hspec.1)
  obtain ⟨hv, hbin, hh, hw⟩ := diagIter_spec hd k
  rw [← he] at hv hbin hh hw
  exact ⟨k, he, hv, hh, hw, hbin⟩

theorem iter_period_mul {n : Nat} {b : List Char} {m : Nat}
    (hPm : (orbitRot n)^[m] b = b) : ∀ q, (orbitRot n)^[m * q] b = b := by
  intro q
  induction q with
  | zero => simp
  | succ p ih =>
    have he : m * (p + 1) = m * p + m := by ring
    rw [he, Function.iterate_add_apply, hPm, ih]

theorem sameOrb_symm {d e : YoungDiagram} (hd : ValidYD d) (h : SameOrb d e) :
    SameOrb e d := by
  obtain ⟨k, he, hv, hh, hw, hbin⟩ := sameOrb_elim hd h
  have hlen : d.binary_description.length = d.height + d.width := (binary_counts hd).2.2
  rcases Nat.eq_zero_or_pos (d.height + d.width) with hz | hpos
  · -- perimeter 0 on both sides: e decodes from the empty string, so e = d
    have hbnil : d.binary_description = [] := List.eq_nil_of_length_eq_zero (by omega)
    have hiter : ∀ j, (orbitRot (d.height + d.width))^[j] d.binary_description = [] := by
      intro j
      have := orbitRot_iter_length hlen j
      exact List.eq_nil_of_length_eq_zero (by omega)
    have hed : e = d := by
      rw [he]
      rw [hiter k, ← hbnil]
      exact diagOfStr_binary hd
    rw [hed]
    exact ⟨k, by rw [hiter k, ← hbnil]; exact decode_encode hd⟩
  · refine ⟨(d.height + d.width) * (k + 1) - k, ?_⟩
    rw [hh, hw, hbin, ← Function.iterate_add_apply]
    have harith : (d.height + d.width) * (k + 1) - k + k = (d.height + d.width) * (k + 1) := by
      have : k + 1 ≤ (d.height + d.width) * (k + 1) := Nat.le_mul_of_pos_left _ hpos
      omega
    rw [harith, iter_period_mul (orbitRot_iter_id hlen) (k + 1)]
    exact decode_encode hd

theorem sameOrb_trans {d e g : YoungDiagram} (hd : ValidYD d)
    (h1 : SameOrb d e) (h2 : SameOrb e g) : SameOrb d g := by
  obtain ⟨k, he, hv, hh, hw, hbin⟩ := sameOrb_elim hd h1
  obtain ⟨j, hj⟩ := h2
  rw [hh, hw, hbin, ← Function.iterate_add_apply] at hj
  exact ⟨j + k, hj⟩

/-! ### The orbit generator of a seed, and its upper-triangular fellows -/

/-- Full description of the orbit generator run: the minimal period `m`, and
the orbit list. -/
theorem orbit_run_general {d : YoungDiagram} (hd : ValidYD d)
    (hn : 2 ≤ d.height + d.width) (fuel : Nat) (hfuel : d.height + d.width ≤ fuel) :
    ∃ m, 0 < m ∧ m ≤ d.height + d.width ∧
      (orbitRot (d.height + d.width))^[m] d.binary_description = d.binary_description ∧
      (∀ j, 0 < j → j < m →
        (orbitRot (d.height + d.width))^[j] d.binary_description ≠ d.binary_description) ∧
      d.cyclic_orbit fuel = GenRes.finished ((List.range m).map
        (fun i => diagOfStr ((orbitRot (d.height + d.width))^[i] d.binary_description))) := by
  obtain ⟨m, _, hm0, hPm, hmin, hdvd⟩ := orbit_length_spec hd
  have hmn : m ≤ d.height + d.width := Nat.le_of_dvd (by omega) hdvd
  have hrun := cyclicOrbitAux_run hd hn hm0 hPm hmin fuel 0 (by omega) (by omega)
  rw [Nat.sub_zero] at hrun
  have hd0 : diagOfStr ((orbitRot (d.height + d.width))^[0] d.binary_description) = d := by
    show diagOfStr d.binary_description = d
    exact diagOfStr_binary hd
  rw [hd0] at hrun
  refine ⟨m, hm0, hmn, hPm, hmin, ?_⟩
  show cyclicOrbitAux d d fuel = _
  rw [hrun]
  congr 1
  apply List.map_congr_left
  intro a _
  rw [Nat.zero_add]

/-- Membership in the orbit list is exactly orbit equivalence. -/
theorem mem_orbit_iff {d : YoungDiagram} (hd : ValidYD d) {m : Nat} (hm0 : 0 < m)
    (hPm : (orbitRot (d.height + d.width))^[m] d.binary_description = d.binary_description)
    (e : YoungDiagram) :
    e ∈ (List.range m).map
        (fun i => diagOfStr ((orbitRot (d.height + d.width))^[i] d.binary_description)) ↔
      SameOrb d e := by
  constructor
  · intro he
    rw [List.mem_map] at he
    obtain ⟨i, _, hie⟩ := he
    exact ⟨i, by rw [← hie]; exact (diagOfStr_spec (iter_balanced hd i)).1⟩
  · intro he
    obtain ⟨k, he2, _, _, _, _⟩ := sameOrb_elim hd he
    rw [List.mem_map]
    refine ⟨k % m, by rw [List.mem_range]; exact Nat.mod_lt k hm0, ?_⟩
    have hsplit : k = k % m + m * (k / m) := by
      have := Nat.div_add_mod k m
      omega
    have hiter : (orbitRot (d.height + d.width))^[k] d.binary_description
        = (orbitRot (d.height + d.width))^[k % m] d.binary_description := by
      conv_lhs => rw [hsplit]
      rw [Function.iterate_add_apply, iter_period_mul hPm]
    rw [← hiter, ← he2]

/-- The upper-triangular members of a fellow list, as recorded by the inner
scan of `get_minimal_upper_triangulars`. -/
def utFilter (l : List YoungDiagram) : List YoungDiagram :=
  l.filter (fun f => decide (f.is_upper_triangular = some true))

theorem mem_utFilter {l : List YoungDiagram} {f : YoungDiagram} :
    f ∈ utFilter l ↔ f ∈ l ∧ f.is_upper_triangular = some true := by
  unfold utFilter
  rw [List.mem_filter, decide_eq_true_eq]

/-- Correctness of the inner fellow scan: it returns the upper-triangular
fellows appended to the accumulator, together with the lexicographic minimum
of the running minimum and those fellows. -/
theorem innerScan_spec (H W L : Nat) : ∀ (fellows acc : List YoungDiagram)
    (m : YoungDiagram),
    (∀ f ∈ fellows, f.is_upper_triangular = some true ∨
      f.is_upper_triangular = some false) →
    (∀ f ∈ fellows, f.height = H ∧ f.width = W ∧ f.usual_description.length = L) →
    (m.height = H ∧ m.width = W ∧ m.usual_description.length = L) →
    ∃ mm, innerScan fellows acc m = some (acc ++ utFilter fellows, mm) ∧
      (mm = m ∨ mm ∈ utFilter fellows) ∧
      (∀ g, (g = m ∨ g ∈ utFilter fellows) →
        lexLtAux g.usual_description mm.usual_description = false) := by
  intro fellows
  induction fellows with
  | nil =>
    intro acc m _ _ _
    refine ⟨m, by simp [innerScan, utFilter], Or.inl rfl, ?_⟩
    intro g hg
    rcases hg with rfl | hg
    · exact lexLtAux_irrefl _
    · exact absurd hg (by simp [utFilter])
  | cons f fs ih =>
    intro acc m hdet hdims hm
    have hdetf := hdet f (List.mem_cons_self f fs)
    have hdimf := hdims f (List.mem_cons_self f fs)
    rcases hdetf with hft | hff
    swap
    · -- non-upper-triangular fellow is skipped
      have hfil : utFilter (f :: fs) = utFilter fs := by
        unfold utFilter
        rw [List.filter_cons, if_neg (by simp [hff])]
      obtain ⟨mm, h1, h2, h3⟩ := ih acc m
        (fun g hg => hdet g (List.mem_cons_of_mem f hg))
        (fun g hg => hdims g (List.mem_cons_of_mem f hg)) hm
      refine ⟨mm, ?_, ?_, ?_⟩
      · show innerScan (f :: fs) acc m = _
        unfold innerScan
        rw [hff]
        show innerScan fs acc m = _
        rw [h1, hfil]
      · rw [hfil]
        exact h2
      · rw [hfil]
        exact h3
    · -- upper-triangular fellow
      have hflt : f.lt? m = some (lexLtAux f.usual_description m.usual_description) := by
        unfold YoungDiagram.lt?
        rw [if_pos ⟨by rw [hdimf.1, hm.1], by rw [hdimf.2.1, hm.2.1]⟩]
      have hfil : utFilter (f :: fs) = f :: utFilter fs := by
        unfold utFilter
        rw [List.filter_cons, if_pos (by rw [decide_eq_true_eq]; exact hft)]
      by_cases hcmp : lexLtAux f.usual_description m.usual_description = true
      · -- new minimum
        obtain ⟨mm, h1, h2, h3⟩ := ih (acc ++ [f]) f
          (fun g hg => hdet g (List.mem_cons_of_mem f hg))
          (fun g hg => hdims g (List.mem_cons_of_mem f hg)) hdimf
        refine ⟨mm, ?_, ?_, ?_⟩
        · show innerScan (f :: fs) acc m = _
          unfold innerScan
          rw [hft, hflt, hcmp]
          show innerScan fs (acc ++ [f]) f = _
          rw [h1, hfil]
          simp
        · rcases h2 with rfl | h2
          · exact Or.inr (by rw [hfil]; exact List.mem_cons_self _ _)
          · exact Or.inr (by rw [hfil]; exact List.mem_cons_of_mem _ h2)
        · intro g hg
          rcases hg with rfl | hg
          · -- the old minimum is not below the new one
            by_contra hlt
            rw [Bool.not_eq_false] at hlt
            have hfmm := h3 f (Or.inl rfl)
            have := lexLtAux_trans _ _ _ hcmp hlt
            rw [this] at hfmm
            cases hfmm
          · rw [hfil] at hg
            rcases List.mem_cons.1 hg with rfl | hg
            · exact h3 g (Or.inl rfl)
            · exact h3 g (Or.inr hg)
      · -- minimum unchanged
        rw [Bool.not_eq_true] at hcmp
        obtain ⟨mm, h1, h2, h3⟩ := ih (acc ++ [f]) m
          (fun g hg => hdet g (List.mem_cons_of_mem f hg))
          (fun g hg => hdims g (List.mem_cons_of_mem f hg)) hm
        refine ⟨mm, ?_, ?_, ?_⟩
        · show innerScan (f :: fs) acc m = _
          unfold innerScan
          rw [hft, hflt, hcmp]
          show innerScan fs (acc ++ [f]) m = _
          rw [h1, hfil]
          simp
        · rcases h2 with rfl | h2
          · exact Or.inl rfl
          · exact Or.inr (by rw [hfil]; exact List.mem_cons_of_mem _ h2)
        · intro g hg
          rcases hg with rfl | hg
          · exact h3 g (Or.inl rfl)
          · rw [hfil] at hg
            rcases List.mem_cons.1 hg with rfl | hg
            · -- the skipped fellow is not below the final minimum
              by_contra hlt
              rw [Bool.not_eq_false] at hlt
              have hmlen : m.usual_description.length = g.usual_description.length := by
                rw [hm.2.2, hdimf.2.2]
              by_cases hmg : lexLtAux m.usual_description g.usual_description = true
              · have := lexLtAux_trans _ _ _ hmg hlt
                have hmm := h3 m (Or.inl rfl)
                rw [this] at hmm
                cases hmm
              · rw [Bool.not_eq_true] at hmg
                have hgu : g.usual_description = m.usual_description :=
                  lexLtAux_eq_of_not _ _ hmlen.symm hcmp hmg
                rw [hgu] at hlt
                have hmm := h3 m (Or.inl rfl)
                rw [hlt] at hmm
                cases hmm
            · exact h3 g (Or.inr hg)

/-- `is_upper_triangular` answers on every diagram of positive height. -/
theorem ut_det {d : YoungDiagram} (hh : 0 < d.height) :
    d.is_upper_triangular = some true ∨ d.is_upper_triangular = some false := by
  unfold YoungDiagram.is_upper_triangular
  rw [if_pos hh]
  cases utCheck d.height d.width 0 d.usual_description
  · exact Or.inr rfl
  · exact Or.inl rfl

/-- A diagram judged by `is_upper_triangular` has positive height. -/
theorem ut_pos_height {d : YoungDiagram} {b : Bool}
    (h : d.is_upper_triangular = some b) : 0 < d.height := by
  unfold YoungDiagram.is_upper_triangular at h
  by_cases hh : 0 < d.height
  · exact hh
  · rw [if_neg hh] at h
    cases h

/-- The per-seed work of the outer loop of `get_minimal_upper_triangulars`:
the orbit generator finishes, the inner scan succeeds and records exactly the
upper-triangular orbit members, and the returned diagram is their
lexicographic minimum. -/
theorem seed_scan {YD : YoungDiagram} (hv : ValidYD YD)
    (hut : YD.is_upper_triangular = some true) (hn2 : 2 ≤ YD.height + YD.width)
    (fuel : Nat) (hfuel : YD.height + YD.width ≤ fuel) :
    ∃ fellows mm, YD.cyclic_orbit fuel = GenRes.finished fellows ∧
      innerScan fellows [] YD = some (utFilter fellows, mm) ∧
      (∀ e, e ∈ fellows ↔ SameOrb YD e) ∧
      mm ∈ utFilter fellows ∧
      (∀ g, g ∈ utFilter fellows →
        lexLtAux g.usual_description mm.usual_description = false) := by
  obtain ⟨m, hm0, hmle, hPm, hmin, hrun⟩ := orbit_run_general hv hn2 fuel hfuel
  have hH : 0 < YD.height := ut_pos_height hut
  have hmemiff := mem_orbit_iff hv hm0 hPm
  have hdet : ∀ f ∈ (List.range m).map
      (fun i => diagOfStr ((orbitRot (YD.height + YD.width))^[i] YD.binary_description)),
      f.is_upper_triangular = some true ∨ f.is_upper_triangular = some false := by
    intro f hf
    obtain ⟨i, _, hif⟩ := List.mem_map.1 hf
    have hspec := diagIter_spec hv i
    rw [← hif]
    exact ut_det (by rw [hspec.2.2.1]; exact hH)
  have hdims : ∀ f ∈ (List.range m).map
      (fun i => diagOfStr ((orbitRot (YD.height + YD.width))^[i] YD.binary_description)),
      f.height = YD.height ∧ f.width = YD.width ∧
        f.usual_description.length = YD.height := by
    intro f hf
    obtain ⟨i, _, hif⟩ := List.mem_map.1 hf
    have hspec := diagIter_spec hv i
    rw [← hif]
    exact ⟨hspec.2.2.1, hspec.2.2.2, by rw [hspec.1.1, hspec.2.2.1]⟩
  obtain ⟨mm, h1, h2, h3⟩ := innerScan_spec YD.height YD.width YD.height
    ((List.range m).map
      (fun i => diagOfStr ((orbitRot (YD.height + YD.width))^[i] YD.binary_description)))
    [] YD hdet hdims ⟨rfl, rfl, hv.1⟩
  rw [List.nil_append] at h1
  have hYDmem : YD ∈ utFilter ((List.range m).map
      (fun i => diagOfStr ((orbitRot (YD.height + YD.width))^[i] YD.binary_description))) :=
    mem_utFilter.2 ⟨(hmemiff YD).2 (sameOrb_refl hv), hut⟩
  refine ⟨_, mm, hrun, h1, hmemiff, ?_, ?_⟩
  · rcases h2 with rfl | h2
    · exact hYDmem
    · exact h2
  · intro g hg
    exact h3 g (Or.inr hg)

/-- Correctness of the outer scan of `get_minimal_upper_triangulars`: every
yield is a valid upper-triangular diagram, lexicographically minimal among the
upper-triangular members of its cyclic orbit, no yield shares an orbit with
the seed of a recorded orbit list, and distinct yields lie in distinct
orbits. -/
theorem outerScan_spec (fuel : Nat) : ∀ (rest : List YoungDiagram)
    (orbits : List (List YoungDiagram)) (endRaised : Bool),
    (∀ d ∈ rest, ValidYD d ∧ d.is_upper_triangular = some true ∧
      2 ≤ d.height + d.width ∧ d.height + d.width ≤ fuel) →
    (∀ y ∈ yieldsOf (outerScan fuel rest orbits endRaised),
        ValidYD y ∧ y.is_upper_triangular = some true ∧
        (∀ e, SameOrb y e → e.is_upper_triangular = some true →
          lexLtAux e.usual_description y.usual_description = false) ∧
        (∀ o ∈ orbits, ∀ s, ValidYD s →
          (∀ e, e.is_upper_triangular = some true → (e ∈ o ↔ SameOrb s e)) →
          ¬ SameOrb s y)) ∧
    List.Pairwise (fun a b => ¬ SameOrb a b)
      (yieldsOf (outerScan fuel rest orbits endRaised)) := by
  intro rest
  induction rest with
  | nil =>
    intro orbits endRaised _
    constructor
    · intro y hy
      cases endRaised <;> simp [outerScan, yieldsOf] at hy
    · cases endRaised <;> simp [outerScan, yieldsOf]
  | cons YD rest ih =>
    intro orbits endRaised hrest
    obtain ⟨hvYD, hutYD, hn2, hfuel⟩ := hrest YD (List.mem_cons_self _ _)
    have hrest2 := fun d hd => hrest d (List.mem_cons_of_mem YD hd)
    by_cases hskip : orbits.any (fun o => o.contains YD) = true
    · have heq : outerScan fuel (YD :: rest) orbits endRaised
          = outerScan fuel rest orbits endRaised := by
        rw [outerScan.eq_2, if_pos hskip]
      rw [heq]
      exact ih orbits endRaised hrest2
    · have hnoskip : ∀ o ∈ orbits, YD ∉ o := by
        intro o ho hmem
        exact hskip (List.any_eq_true.2 ⟨o, ho, List.elem_iff.2 hmem⟩)
      obtain ⟨fellows, mm, hrun, hscan, hmemiff, hmmut, hmmmin⟩ :=
        seed_scan hvYD hutYD hn2 fuel hfuel
      have hstep : ∀ res, outerScan fuel rest (orbits ++ [utFilter fellows]) endRaised = res →
          outerScan fuel (YD :: rest) orbits endRaised =
            (match res with
             | GenRes.finished l => GenRes.finished (mm :: l)
             | GenRes.raised l => GenRes.raised (mm :: l)
             | GenRes.fuelOut l => GenRes.fuelOut (mm :: l)) := by
        intro res hres
        rw [outerScan.eq_2, if_neg hskip]
        simp only [hrun, hscan, hres]
      have hyields : yieldsOf (outerScan fuel (YD :: rest) orbits endRaised)
          = mm :: yieldsOf (outerScan fuel rest (orbits ++ [utFilter fellows]) endRaised) := by
        rw [hstep _ rfl]
        cases outerScan fuel rest (orbits ++ [utFilter fellows]) endRaised <;> rfl
      have horbprop : ∀ e, e.is_upper_triangular = some true →
          (e ∈ utFilter fellows ↔ SameOrb YD e) := by
        intro e hute
        rw [mem_utFilter]
        constructor
        · rintro ⟨he, _⟩
          exact (hmemiff e).1 he
        · intro hs
          exact ⟨(hmemiff e).2 hs, hute⟩
      have hsYDmm : SameOrb YD mm := (hmemiff mm).1 (mem_utFilter.1 hmmut).1
      obtain ⟨k, _, hvmm, _, _, _⟩ := sameOrb_elim hvYD hsYDmm
      have hmmut2 : mm.is_upper_triangular = some true := (mem_utFilter.1 hmmut).2
      obtain ⟨hrec1, hrec2⟩ := ih (orbits ++ [utFilter fellows]) endRaised hrest2
      rw [hyields]
      constructor
      · intro y hy
        rcases List.mem_cons.1 hy with rfl | hy
        · refine ⟨hvmm, hmmut2, ?_, ?_⟩
          · intro e hse hute
            have hYDe : SameOrb YD e := sameOrb_trans hvYD hsYDmm hse
            exact hmmmin e (mem_utFilter.2 ⟨(hmemiff e).2 hYDe, hute⟩)
          · intro o ho s hvs hprop hsm
            have hsYD : SameOrb s YD :=
              sameOrb_trans hvs hsm (sameOrb_symm hvYD hsYDmm)
            exact hnoskip o ho ((hprop YD hutYD).2 hsYD)
        · obtain ⟨hy1, hy2, hy3, hy4⟩ := hrec1 y hy
          refine ⟨hy1, hy2, hy3, ?_⟩
          intro o ho s hvs hprop
          exact hy4 o (List.mem_append_left _ ho) s hvs hprop
      · refine List.pairwise_cons.2 ⟨?_, hrec2⟩
        intro y hy hsmy
        have h4 := (hrec1 y hy).2.2.2 (utFilter fellows)
          (List.mem_append_right _ (List.mem_singleton_self _)) YD hvYD horbprop
        exact h4 (sameOrb_trans hvYD hsYDmm hsmy)

/-- C4: `get_minimal_upper_triangulars` never yields two diagrams of the same
cyclic orbit, and every diagram it yields is upper-triangular, lies in its own
cyclic orbit, and is lexicographically minimal among the upper-triangular
members of that orbit. -/
theorem C4_minimal_representatives (height width : Nat) :
    List.Pairwise (fun a b => ¬ SameOrb a b)
      (yieldsOf (get_minimal_upper_triangulars height width)) ∧
    ∀ y ∈ yieldsOf (get_minimal_upper_triangulars height width),
      y.is_upper_triangular = some true ∧ SameOrb y y ∧
      ∀ e, SameOrb y e → e.is_upper_triangular = some true →
        lexLtAux e.usual_description y.usual_description = false := by
  have hseed : ∀ (l : List YoungDiagram),
      get_upper_triangulars height width = GenRes.finished l ∨
      get_upper_triangulars height width = GenRes.raised l →
      ∀ d ∈ l, ValidYD d ∧ d.is_upper_triangular = some true ∧
        2 ≤ d.height + d.width ∧ d.height + d.width ≤ height + width + 1 := by
    intro l hg d hd
    have hmem : d ∈ yieldsOf (get_upper_triangulars height width) := by
      rcases hg with hg | hg <;> rw [hg] <;> exact hd
    obtain ⟨hvd, hdh, hdw, hdut, hh1, _⟩ := enum_sound hmem
    have hw1 : 0 < d.height := ut_pos_height hdut
    exact ⟨hvd, hdut, by omega, by omega⟩
  have hmain : ∀ (l : List YoungDiagram) (endRaised : Bool),
      get_upper_triangulars height width = GenRes.finished l ∨
      get_upper_triangulars height width = GenRes.raised l →
      List.Pairwise (fun a b => ¬ SameOrb a b)
        (yieldsOf (outerScan (height + width + 1) l [] endRaised)) ∧
      ∀ y ∈ yieldsOf (outerScan (height + width + 1) l [] endRaised),
        y.is_upper_triangular = some true ∧ SameOrb y y ∧
        ∀ e, SameOrb y e → e.is_upper_triangular = some true →
          lexLtAux e.usual_description y.usual_description = false := by
    intro l endRaised hg
    obtain ⟨hs1, hs2⟩ := outerScan_spec (height + width + 1) l [] endRaised
      (hseed l hg)
    refine ⟨hs2, ?_⟩
    intro y hy
    obtain ⟨hy1, hy2, hy3, _⟩ := hs1 y hy
    exact ⟨hy2, sameOrb_refl hy1, hy3⟩
  cases hg : get_upper_triangulars height width with
  | finished l =>
    have := hmain l false (Or.inl hg)
    simp only [get_minimal_upper_triangulars, hg]
    exact this
  | raised l =>
    have := hmain l true (Or.inr hg)
    simp only [get_minimal_upper_triangulars, hg]
    exact this
  | fuelOut l =>
    simp only [get_minimal_upper_triangulars, hg]
    exact ⟨List.Pairwise.nil, by intro y hy; cases hy⟩

theorem C4_minimal_representatives_witness :
    (⟨3, 3, [2, 1, 0]⟩ : YoungDiagram) ∈
        yieldsOf (get_minimal_upper_triangulars 3 3) ∧
      (⟨3, 3, [2, 1, 0]⟩ : YoungDiagram).is_upper_triangular = some true :=
  ⟨by decide, ((C4_minimal_representatives 3 3).2 _ (by decide)).1⟩

end YoungTools
